import Mathlib

/-!
Verification of the Link_chatbot retrieval/indexing pipeline.

Shallow embedding of the repository's Python sources:
  - `crawl.py`             (KooraCrawler: robots gating, link normalisation)
  - `extract_matches.py`   (match extractor)
  - `arabic_chatbot_final/rag.py`   (chunker, indexer)
  - `arabic_chatbot_final/app.py`   (date lookup over the matches dataset)

Python strings are modelled as `List Char` (Python `len`/indexing count code
points, exactly like `List Char` length) or as Lean `String` where convenient;
machine-level hashing (SHA-1, from CPython's `hashlib.sha1`) is implemented
concretely over byte lists with arithmetic modulo 2^32.
-/

set_option maxRecDepth 20000

namespace PyStr

/-- Python's whitespace test for `str.split()` / `str.strip()` (ASCII and
Unicode space forms; the corpus only exercises the ASCII ones). -/
def isWs (c : Char) : Bool := c.isWhitespace

theorem length_dropWhile_le (p : Char → Bool) (l : List Char) :
    (l.dropWhile p).length ≤ l.length := by
  induction l with
  | nil => simp [List.dropWhile]
  | cons c cs ih =>
    rw [List.dropWhile_cons]
    split
    · exact Nat.le_trans ih (by simp)
    · simp

/-- `str.split()` with no separator, fuel-structured so the kernel can reduce
it (the fuel bounds the number of characters consumed). -/
def pyWordsF : Nat → List Char → List (List Char)
  | 0, _ => []
  | _ + 1, [] => []
  | fuel + 1, c :: cs =>
    if isWs c then pyWordsF fuel cs
    else (c :: cs.takeWhile (fun d => !isWs d)) :: pyWordsF fuel (cs.dropWhile (fun d => !isWs d))

/-- `str.split()` with no separator: split on runs of whitespace, dropping
empty pieces. -/
def pyWords (l : List Char) : List (List Char) := pyWordsF l.length l

theorem pyWordsF_congr : ∀ fuel fuel' (l : List Char), l.length ≤ fuel → l.length ≤ fuel' →
    pyWordsF fuel l = pyWordsF fuel' l := by
  intro fuel
  induction fuel with
  | zero =>
    intro fuel' l h _
    have : l = [] := List.length_eq_zero.mp (Nat.le_zero.mp h)
    subst this
    cases fuel' <;> rfl
  | succ f ih =>
    intro fuel' l h h'
    cases l with
    | nil => cases fuel' <;> rfl
    | cons c cs =>
      cases fuel' with
      | zero => exact absurd h' (by simp)
      | succ f' =>
        simp only [pyWordsF]
        have hcs : cs.length ≤ f := by simpa using h
        have hcs' : cs.length ≤ f' := by simpa using h'
        have hd : (cs.dropWhile (fun d => !isWs d)).length ≤ f :=
          Nat.le_trans (length_dropWhile_le _ cs) hcs
        have hd' : (cs.dropWhile (fun d => !isWs d)).length ≤ f' :=
          Nat.le_trans (length_dropWhile_le _ cs) hcs'
        by_cases hw : isWs c
        · rw [if_pos hw, if_pos hw]
          exact ih f' cs hcs hcs'
        · rw [if_neg hw, if_neg hw, ih f' _ hd hd']

/-- `" ".join(ws)` on a list of words. -/
def joinWords : List (List Char) → List Char
  | [] => []
  | [w] => w
  | w :: rest => w ++ ' ' :: joinWords rest

/-- `str.strip()`: drop whitespace from both ends. -/
def pyStrip (l : List Char) : List Char :=
  ((l.dropWhile isWs).reverse.dropWhile isWs).reverse

/-- `re.sub(r'\s+', ' ', t).strip()`: collapse whitespace runs and trim. -/
def normWs (l : List Char) : List Char := joinWords (pyWords l)

theorem pyWords_nil : pyWords [] = [] := rfl

theorem pyWords_cons_ws {c : Char} (h : isWs c = true) (cs : List Char) :
    pyWords (c :: cs) = pyWords cs := by
  show pyWordsF (c :: cs).length (c :: cs) = pyWordsF cs.length cs
  simp only [List.length_cons, pyWordsF, h, if_true]

theorem pyWords_cons_not_ws {c : Char} (h : isWs c = false) (cs : List Char) :
    pyWords (c :: cs) =
      (c :: cs.takeWhile (fun d => !isWs d)) :: pyWords (cs.dropWhile (fun d => !isWs d)) := by
  show pyWordsF (cs.length + 1) (c :: cs) = _
  simp only [pyWordsF]
  rw [if_neg (by simp [h])]
  refine congrArg _ ?_
  exact pyWordsF_congr cs.length _ _ (length_dropWhile_le _ cs) (Nat.le_refl _)

/-- Every word produced by `pyWordsF` is nonempty and whitespace-free. -/
theorem pyWordsF_sound : ∀ fuel (l : List Char),
    ∀ w ∈ pyWordsF fuel l, w ≠ [] ∧ ∀ c ∈ w, isWs c = false := by
  intro fuel
  induction fuel with
  | zero => intro l w hw; simp [pyWordsF] at hw
  | succ f ih =>
    intro l w hw
    cases l with
    | nil => simp [pyWordsF] at hw
    | cons c cs =>
      simp only [pyWordsF] at hw
      by_cases hc : isWs c
      · rw [if_pos hc] at hw
        exact ih cs w hw
      · rw [if_neg hc] at hw
        rcases List.mem_cons.mp hw with rfl | hw'
        · refine ⟨by simp, ?_⟩
          intro d hd
          rcases List.mem_cons.mp hd with rfl | hd'
          · simpa using hc
          · have := List.mem_takeWhile_imp hd'
            simpa using this
        · exact ih _ w hw'

/-- Every word produced by `pyWords` is nonempty and whitespace-free. -/
theorem pyWords_sound (l : List Char) :
    ∀ w ∈ pyWords l, w ≠ [] ∧ ∀ c ∈ w, isWs c = false :=
  pyWordsF_sound l.length l

theorem takeWhile_append_of_all {p : Char → Bool} {w : List Char} {b : Char} {t : List Char}
    (hw : ∀ c ∈ w, p c = true) (hb : p b = false) :
    (w ++ b :: t).takeWhile p = w := by
  induction w with
  | nil => simp [List.takeWhile, hb]
  | cons x xs ih =>
    have hx : p x = true := hw x (by simp)
    simp only [List.cons_append, List.takeWhile_cons, hx, if_true]
    rw [ih (fun c hc => hw c (by simp [hc]))]

theorem dropWhile_append_of_all {p : Char → Bool} {w : List Char} {b : Char} {t : List Char}
    (hw : ∀ c ∈ w, p c = true) (hb : p b = false) :
    (w ++ b :: t).dropWhile p = b :: t := by
  induction w with
  | nil => simp [List.dropWhile, hb]
  | cons x xs ih =>
    have hx : p x = true := hw x (by simp)
    simp only [List.cons_append, List.dropWhile_cons, hx, if_true]
    exact ih (fun c hc => hw c (by simp [hc]))

/-- Splitting a space-joined list of nonempty whitespace-free words recovers
exactly those words. -/
theorem pyWords_joinWords (ws : List (List Char))
    (h : ∀ w ∈ ws, w ≠ [] ∧ ∀ c ∈ w, isWs c = false) :
    pyWords (joinWords ws) = ws := by
  induction ws with
  | nil => simp [joinWords, pyWords, pyWordsF]
  | cons w rest ih =>
    rcases h w (by simp) with ⟨hne, hfree⟩
    cases rest with
    | nil =>
      simp only [joinWords]
      cases w with
      | nil => exact absurd rfl hne
      | cons c cs =>
        have hc : isWs c = false := hfree c (by simp)
        rw [pyWords_cons_not_ws hc]
        have hcs : ∀ d ∈ cs, (fun d => !isWs d) d = true := by
          intro d hd; simp [hfree d (by simp [hd])]
        rw [List.takeWhile_eq_self_iff.mpr hcs, List.dropWhile_eq_nil_iff.mpr ?_]
        · simp [pyWords, pyWordsF]
        · intro d hd; simp [hfree d (by simp [hd])]
    | cons w2 rest2 =>
      have hjoin : joinWords (w :: w2 :: rest2) = w ++ ' ' :: joinWords (w2 :: rest2) := rfl
      rw [hjoin]
      cases w with
      | nil => exact absurd rfl hne
      | cons c cs =>
        have hc : isWs c = false := hfree c (by simp)
        have hsp : isWs ' ' = true := by decide
        have hcs : ∀ d ∈ cs, (fun d => !isWs d) d = true := by
          intro d hd; simp [hfree d (by simp [hd])]
        have hcons : (c :: cs) ++ ' ' :: joinWords (w2 :: rest2)
            = c :: (cs ++ ' ' :: joinWords (w2 :: rest2)) := by simp
        rw [hcons, pyWords_cons_not_ws hc]
        rw [takeWhile_append_of_all hcs (by simp [hsp]),
            dropWhile_append_of_all hcs (by simp [hsp])]
        rw [pyWords_cons_ws hsp]
        rw [ih (fun x hx => h x (by simp [hx]))]

theorem joinWords_ne_nil {ws : List (List Char)} (hne : ws ≠ [])
    (h : ∀ w ∈ ws, w ≠ []) : joinWords ws ≠ [] := by
  cases ws with
  | nil => exact absurd rfl hne
  | cons w rest =>
    cases rest with
    | nil => simpa [joinWords] using h w (by simp)
    | cons w2 r2 =>
      have : joinWords (w :: w2 :: r2) = w ++ ' ' :: joinWords (w2 :: r2) := rfl
      rw [this]
      intro hcontra
      rcases List.append_eq_nil.mp hcontra with ⟨_, h2⟩
      exact List.cons_ne_nil _ _ h2

theorem joinWords_append {g g' : List (List Char)} (hg : g ≠ []) (hg' : g' ≠ []) :
    joinWords (g ++ g') = joinWords g ++ ' ' :: joinWords g' := by
  induction g with
  | nil => exact absurd rfl hg
  | cons w rest ih =>
    cases rest with
    | nil =>
      cases g' with
      | nil => exact absurd rfl hg'
      | cons w2 r2 => rfl
    | cons w2 r2 =>
      have h1 : joinWords ((w :: w2 :: r2) ++ g') = w ++ ' ' :: joinWords ((w2 :: r2) ++ g') := by
        cases g' with
        | nil => exact absurd rfl hg'
        | cons _ _ => rfl
      rw [h1, ih (by simp)]
      show w ++ ' ' :: (joinWords (w2 :: r2) ++ ' ' :: joinWords g')
          = (w ++ ' ' :: joinWords (w2 :: r2)) ++ ' ' :: joinWords g'
      simp [List.append_assoc]

end PyStr

namespace SHA1

/-!
SHA-1 as used by `hashlib.sha1` in `rag.py` (FIPS 180-1), implemented over
byte lists with 32-bit words as `Nat` reduced modulo `2^32`.
-/

def M32 : Nat := 4294967296

/-- Left rotation of a 32-bit word. -/
def rotl (k n : Nat) : Nat := ((n <<< k) % M32) ||| (n >>> (32 - k))

/-- Split into 64-byte blocks (fuel-structured so the kernel can reduce it;
the fuel is the list length, an upper bound on the number of blocks). -/
def chunks64F : Nat → List Nat → List (List Nat)
  | 0, _ => []
  | _ + 1, [] => []
  | fuel + 1, b :: rest => (b :: rest).take 64 :: chunks64F fuel ((b :: rest).drop 64)

/-- Split into 64-byte blocks. -/
def chunks64 (l : List Nat) : List (List Nat) := chunks64F l.length l

/-- Big-endian 32-bit words from bytes. -/
def bytesToWords : List Nat → List Nat
  | b0 :: b1 :: b2 :: b3 :: rest =>
    (b0 * 16777216 + b1 * 65536 + b2 * 256 + b3) :: bytesToWords rest
  | _ => []

/-- Extend the 16-word message schedule to 80 words. -/
def extendW : Nat → List Nat → List Nat
  | 0, w => w
  | k + 1, w =>
    let t := w.length
    let x := rotl 1 (((w.getD (t - 3) 0) ^^^ (w.getD (t - 8) 0)) ^^^
                    ((w.getD (t - 14) 0) ^^^ (w.getD (t - 16) 0)))
    extendW k (w ++ [x])

/-- Round function and constant for round `t`. -/
def fk (t b c d : Nat) : Nat × Nat :=
  if t < 20 then ((b.land c).lor ((4294967295 - b).land d), 1518500249)
  else if t < 40 then ((b ^^^ c) ^^^ d, 1859775393)
  else if t < 60 then (((b.land c).lor (b.land d)).lor (c.land d), 2400959708)
  else ((b ^^^ c) ^^^ d, 3395469782)

/-- The 80 compression rounds over (round, schedule word) pairs. -/
def rounds : List (Nat × Nat) → Nat × Nat × Nat × Nat × Nat → Nat × Nat × Nat × Nat × Nat
  | [], s => s
  | (t, wt) :: rest, (a, b, c, d, e) =>
    let f := (fk t b c d).1
    let k := (fk t b c d).2
    let temp := (rotl 5 a + f + e + k + wt) % M32
    rounds rest (temp, a, rotl 30 b, c, d)

/-- Compress one 64-byte block into the running state. -/
def compress (h : Nat × Nat × Nat × Nat × Nat) (block : List Nat) :
    Nat × Nat × Nat × Nat × Nat :=
  let w := extendW 64 (bytesToWords block)
  let s := rounds ((List.range 80).zip w) h
  ((h.1 + s.1) % M32, (h.2.1 + s.2.1) % M32, (h.2.2.1 + s.2.2.1) % M32,
   (h.2.2.2.1 + s.2.2.2.1) % M32, (h.2.2.2.2 + s.2.2.2.2) % M32)

/-- The 8-byte big-endian bit length trailer. -/
def lenBytes (ml : Nat) : List Nat :=
  let L := ml * 8
  [(L >>> 56) % 256, (L >>> 48) % 256, (L >>> 40) % 256, (L >>> 32) % 256,
   (L >>> 24) % 256, (L >>> 16) % 256, (L >>> 8) % 256, L % 256]

/-- Merkle-Damgard padding: `0x80`, zeros to 56 mod 64, then the bit length. -/
def pad (msg : List Nat) : List Nat :=
  let z := (56 + 64 - (msg.length + 1) % 64) % 64
  msg ++ 128 :: List.replicate z 0 ++ lenBytes msg.length

/-- SHA-1 digest of a byte list as a 160-bit natural number. -/
def sha1Nat (msg : List Nat) : Nat :=
  let s := (chunks64 (pad msg)).foldl compress
    (1732584193, 4023233417, 2562383102, 271733878, 3285377520)
  s.1 * 2 ^ 128 + s.2.1 * 2 ^ 96 + s.2.2.1 * 2 ^ 64 + s.2.2.2.1 * 2 ^ 32 + s.2.2.2.2

def hexChar (n : Nat) : Char := if n < 10 then Char.ofNat (48 + n) else Char.ofNat (87 + n)

/-- Fixed-width big-endian hex digits. -/
def hexDigits : Nat → Nat → List Char
  | 0, _ => []
  | k + 1, n => hexDigits k (n / 16) ++ [hexChar (n % 16)]

/-- `hashlib.sha1(bytes).hexdigest()`: 40 lowercase hex characters. -/
def sha1Hex (msg : List Nat) : List Char := hexDigits 40 (sha1Nat msg)

/-- UTF-8 encoding of one character (Python `str.encode("utf-8")`). -/
def utf8Char (c : Char) : List Nat :=
  let n := c.toNat
  if n < 128 then [n]
  else if n < 2048 then [192 + n / 64, 128 + n % 64]
  else if n < 65536 then [224 + n / 4096, 128 + (n / 64) % 64, 128 + n % 64]
  else [240 + n / 262144, 128 + (n / 4096) % 64, 128 + (n / 64) % 64, 128 + n % 64]

/-- UTF-8 encoding of a string. -/
def utf8 (s : List Char) : List Nat := (s.map utf8Char).flatten

def hexCharVal (c : Char) : Nat := if 97 ≤ c.toNat then c.toNat - 87 else c.toNat - 48

/-- `int(hexstring, 16)`. -/
def hexToNat (l : List Char) : Nat := l.foldl (fun acc c => acc * 16 + hexCharVal c) 0

end SHA1

namespace Rag

open PyStr

/-!
`arabic_chatbot_final/rag.py`, `chunk_text`:

    def chunk_text(text, max_chars=800):
        words = text.split()
        chunks = []
        cur = []
        cur_len = 0
        for w in words:
            cur.append(w)
            cur_len += len(w) + 1
            if cur_len > max_chars:
                chunks.append(" ".join(cur))
                cur = []
                cur_len = 0
        if cur:
            chunks.append(" ".join(cur))
        return chunks
-/

/-- The word-accumulation loop of `chunk_text`, returning the groups of words
that each chunk joins. -/
def chunkLoop (maxChars : Nat) : List (List Char) → List (List Char) → Nat →
    List (List (List Char))
  | [], cur, _ => if cur.isEmpty then [] else [cur]
  | w :: rest, cur, curLen =>
    let cur' := cur ++ [w]
    let len' := curLen + w.length + 1
    if maxChars < len' then cur' :: chunkLoop maxChars rest [] 0
    else chunkLoop maxChars rest cur' len'

/-- `chunk_text(text, max_chars)` over `List Char` text. -/
def chunk_text (text : List Char) (maxChars : Nat) : List (List Char) :=
  (chunkLoop maxChars (pyWords text) [] 0).map joinWords

theorem chunkLoop_groups_nonempty (maxChars : Nat) (ws : List (List Char)) :
    ∀ cur curLen, ∀ g ∈ chunkLoop maxChars ws cur curLen, cur ≠ [] ∨ ws ≠ [] → g ≠ [] := by
  induction ws with
  | nil =>
    intro cur curLen g hg _
    by_cases hc : cur.isEmpty
    · simp [chunkLoop, hc] at hg
    · simp [chunkLoop, hc] at hg
      subst hg
      simpa [List.isEmpty_iff] using hc
  | cons w rest ih =>
    intro cur curLen g hg _
    simp only [chunkLoop] at hg
    split at hg
    · rcases List.mem_cons.mp hg with rfl | hg'
      · simp
      · exact ih [] 0 g hg' (by by_cases hr : rest = [] <;> simp_all [chunkLoop])
    · exact ih (cur ++ [w]) _ g hg (by by_cases hr : rest = [] <;> simp_all [chunkLoop])

theorem chunkLoop_join (maxChars : Nat) (ws : List (List Char)) :
    ∀ cur curLen, (chunkLoop maxChars ws cur curLen).flatten = cur ++ ws := by
  induction ws with
  | nil =>
    intro cur curLen
    by_cases hc : cur.isEmpty
    · simp [chunkLoop, hc, List.isEmpty_iff.mp hc]
    · simp [chunkLoop, hc]
  | cons w rest ih =>
    intro cur curLen
    simp only [chunkLoop]
    split
    · simp [List.flatten, ih [] 0]
    · simp [ih (cur ++ [w])]

theorem chunkLoop_groups_all_nonempty (maxChars : Nat) (ws : List (List Char)) :
    ∀ g ∈ chunkLoop maxChars ws [] 0, g ≠ [] := by
  intro g hg
  cases hws : ws with
  | nil => rw [hws] at hg; simp [chunkLoop] at hg
  | cons w rest =>
    exact chunkLoop_groups_nonempty maxChars ws [] 0 g hg (by simp [hws])

/-- Joining the per-chunk word groups and flattening equals joining all words:
`" ".join(map(join, gs)) = " ".join(flatten(gs))` for nonempty groups of nonempty
words. -/
theorem joinWords_map_joinWords (gs : List (List (List Char)))
    (h : ∀ g ∈ gs, g ≠ []) :
    joinWords (gs.map joinWords) = joinWords gs.flatten := by
  induction gs with
  | nil => simp [joinWords]
  | cons g rest ih =>
    cases rest with
    | nil => simp [joinWords]
    | cons g2 r2 =>
      have hg : g ≠ [] := h g (by simp)
      have hjoin_ne : (g2 :: r2).flatten ≠ [] := by
        intro hc
        have := h g2 (by simp)
        simp only [List.flatten_cons] at hc
        rcases List.append_eq_nil.mp hc with ⟨h2, _⟩
        exact this h2
      have h1 : joinWords ((g :: g2 :: r2).map joinWords)
          = joinWords g ++ ' ' :: joinWords ((g2 :: r2).map joinWords) := rfl
      rw [h1, ih (fun x hx => h x (by simp [hx]))]
      have h2 : (g :: g2 :: r2).flatten = g ++ (g2 :: r2).flatten := rfl
      rw [h2, joinWords_append hg hjoin_ne]

end Rag

/-- C4: for every text `T` and every `maxChars C > 0`, joining the chunks of
`chunk_text(T, C)` with a single space and re-splitting on whitespace yields
exactly the word sequence of `T.split()` (no word lost, duplicated, or split
inside a word), and the chunk sequence is a deterministic function of
`(T, C)`. -/
theorem claim_c4_chunk_text_reconstructs (T : List Char) (C : Nat) (hC : 0 < C) :
    PyStr.pyWords (PyStr.joinWords (Rag.chunk_text T C)) = PyStr.pyWords T ∧
    (∀ T' C', T = T' → C = C' → Rag.chunk_text T C = Rag.chunk_text T' C') := by
  constructor
  · unfold Rag.chunk_text
    have hne := Rag.chunkLoop_groups_all_nonempty C (PyStr.pyWords T)
    rw [Rag.joinWords_map_joinWords _ hne]
    rw [Rag.chunkLoop_join C (PyStr.pyWords T) [] 0]
    simp only [List.nil_append]
    exact PyStr.pyWords_joinWords _ (PyStr.pyWords_sound T)
  · intro T' C' hT hC'
    rw [hT, hC']

/-- Witness for C4 at `T = "ab cd ef"`, `C = 5`. -/
theorem claim_c4_witness :
    0 < 5 ∧
    PyStr.pyWords (PyStr.joinWords (Rag.chunk_text ("ab cd ef".data) 5))
      = PyStr.pyWords ("ab cd ef".data) :=
  ⟨by decide, (claim_c4_chunk_text_reconstructs ("ab cd ef".data) 5 (by decide)).1⟩

namespace Rag

/-!
`arabic_chatbot_final/rag.py`, `index_dataset` / `upsert_batch`.  One JSONL
input line is modelled as `Option ChunkRec`: `none` stands for the lines the
loop discards before reaching the length check (blank lines, `//` comments,
`json.JSONDecodeError`), `some r` for a decoded record.  The Qdrant store is
an association list from point id to payload; `client.upsert` is
insert-or-replace by id.
-/

/-- A decoded chunk record (missing JSON keys are `none`). -/
structure ChunkRec where
  url : Option (List Char)
  title : Option (List Char)
  published : Option (List Char)
  chunk_index : Option Int
  text : Option (List Char)
deriving DecidableEq

/-- The `meta` dict built per record. -/
structure Meta where
  source : Option (List Char)
  title : Option (List Char)
  published : Option (List Char)
  chunk_index : Option Int
deriving DecidableEq

/-- The payload dict `{"text": txt, **meta, "timestamp": ts}`. -/
structure Payload where
  text : List Char
  source : Option (List Char)
  title : Option (List Char)
  published : Option (List Char)
  chunk_index : Option Int
  timestamp : Nat
deriving DecidableEq

def mkMeta (r : ChunkRec) : Meta := ⟨r.url, r.title, r.published, r.chunk_index⟩

/-- Python `str(x)` on an optional integer (`str(None) = "None"`). -/
def pyStrInt : Option Int → List Char
  | none => "None".data
  | some n => (toString n).data

/-- `txt = (rec.get("text") or "").strip()`. -/
def recTxt (r : ChunkRec) : List Char := PyStr.pyStrip (r.text.getD [])

/-- The guard `if not txt or len(txt) < 40: continue`. -/
def dropsRec (r : ChunkRec) : Prop := recTxt r = [] ∨ (recTxt r).length < 40

instance (r : ChunkRec) : Decidable (dropsRec r) := by unfold dropsRec; infer_instance

/-- Deterministic point id:
`int(sha1((src + "|" + idx + "|" + sha1(txt).hexdigest())).hexdigest()[:16], 16)`. -/
def pointId (src idx txt : List Char) : Nat :=
  let inner := SHA1.sha1Hex (SHA1.utf8 txt)
  SHA1.hexToNat ((SHA1.sha1Hex (SHA1.utf8 (src ++ '|' :: idx ++ '|' :: inner))).take 16)

/-- One point of a batch: id plus payload. -/
def pointOf (ts : Nat) (txt : List Char) (m : Meta) : Nat × Payload :=
  (pointId (m.source.getD []) (pyStrInt m.chunk_index) txt,
   ⟨txt, m.source, m.title, m.published, m.chunk_index, ts⟩)

/-- The vector store: an association list id → payload. -/
abbrev Store : Type := List (Nat × Payload)

/-- Qdrant `upsert`: insert-or-replace by id. -/
def upsertPoint (st : Store) (p : Nat × Payload) : Store :=
  if (List.any st fun e => e.1 == p.1) then
    List.map (fun e => if e.1 == p.1 then p else e) st
  else st ++ [p]

/-- `upsert_batch(texts, metas)`: build the points and upsert them. -/
def upsertBatch (ts : Nat) (st : Store) (buf : List (List Char × Meta)) : Store :=
  (buf.map fun tm => pointOf ts tm.1 tm.2).foldl upsertPoint st

/-- The break test `limit is not None and total >= limit`. -/
def limitReached (limit : Option Nat) (total : Nat) : Prop :=
  match limit with
  | some n => n ≤ total
  | none => False

instance (limit : Option Nat) (total : Nat) : Decidable (limitReached limit total) := by
  unfold limitReached
  cases limit <;> infer_instance

/-- The record loop of `index_dataset` (buffer, store, running total). -/
def indexLoop (ts bs : Nat) (limit : Option Nat) :
    List (Option ChunkRec) → List (List Char × Meta) → Store → Nat → Store × Nat
  | [], buf, st, total => (upsertBatch ts st buf, total + buf.length)
  | none :: rest, buf, st, total => indexLoop ts bs limit rest buf st total
  | some r :: rest, buf, st, total =>
    if dropsRec r then indexLoop ts bs limit rest buf st total
    else
      let buf' := buf ++ [(recTxt r, mkMeta r)]
      if bs ≤ buf'.length then
        let st' := upsertBatch ts st buf'
        let total' := total + buf'.length
        if limitReached limit total' then (st', total')
        else indexLoop ts bs limit rest [] st' total'
      else indexLoop ts bs limit rest buf' st total

/-- `index_dataset(path, model, client, collection, batch_size, limit)`,
with the already-read input lines, the timestamp `ts = int(time.time())`
and the current store made explicit. -/
def index_dataset (input : List (Option ChunkRec)) (bs : Nat) (limit : Option Nat)
    (ts : Nat) (st : Store) : Store × Nat :=
  indexLoop ts bs limit input [] st 0

/-- Number of records that survive the text-length guard. -/
def countValid (input : List (Option ChunkRec)) : Nat :=
  input.countP fun o => match o with
    | none => false
    | some r => decide (¬ dropsRec r)

theorem countValid_nil : countValid [] = 0 := rfl

theorem countValid_cons_none (rest : List (Option ChunkRec)) :
    countValid (none :: rest) = countValid rest := by
  simp [countValid, List.countP_cons]

theorem countValid_cons_drop {r : ChunkRec} (h : dropsRec r) (rest : List (Option ChunkRec)) :
    countValid (some r :: rest) = countValid rest := by
  simp [countValid, List.countP_cons, h]

theorem countValid_cons_keep {r : ChunkRec} (h : ¬ dropsRec r) (rest : List (Option ChunkRec)) :
    countValid (some r :: rest) = countValid rest + 1 := by
  simp [countValid, List.countP_cons, h]

/-- A record failing the length guard contributes nothing: the loop result on
`pre ++ [some r] ++ post` equals the result on `pre ++ post`. -/
theorem indexLoop_drop (ts bs : Nat) (limit : Option Nat) (r : ChunkRec)
    (h : dropsRec r) :
    ∀ (pre post : List (Option ChunkRec)) buf st total,
      indexLoop ts bs limit (pre ++ some r :: post) buf st total
        = indexLoop ts bs limit (pre ++ post) buf st total := by
  intro pre
  induction pre with
  | nil =>
    intro post buf st total
    simp only [List.nil_append, indexLoop, if_pos h]
  | cons o rest ih =>
    intro post buf st total
    cases o with
    | none =>
      simp only [List.cons_append, indexLoop]
      exact ih post buf st total
    | some q =>
      simp only [List.cons_append, indexLoop]
      by_cases hq : dropsRec q
      · rw [if_pos hq, if_pos hq]
        exact ih post buf st total
      · rw [if_neg hq, if_neg hq]
        split
        · split
          · rfl
          · exact ih post _ _ _
        · exact ih post _ _ _

/-- The running total of the loop reaches `min N (already-buffered + valid
remaining)` when the limit is `N`. -/
theorem indexLoop_total_ge (ts bs N : Nat) :
    ∀ (input : List (Option ChunkRec)) buf (st : Store) total,
      min N (total + buf.length + countValid input)
        ≤ (indexLoop ts bs (some N) input buf st total).2 := by
  intro input
  induction input with
  | nil =>
    intro buf st total
    simp only [indexLoop, countValid_nil]
    omega
  | cons o rest ih =>
    intro buf st total
    cases o with
    | none =>
      simp only [indexLoop, countValid_cons_none]
      exact ih buf st total
    | some r =>
      simp only [indexLoop]
      by_cases hr : dropsRec r
      · rw [if_pos hr, countValid_cons_drop hr]
        exact ih buf st total
      · rw [if_neg hr, countValid_cons_keep hr]
        split
        · split
          · next hlim =>
            simp only [limitReached] at hlim
            simp only [List.length_append, List.length_cons, List.length_nil] at hlim ⊢
            omega
          · have := ih [] (upsertBatch ts st (buf ++ [(recTxt r, mkMeta r)]))
              (total + (buf ++ [(recTxt r, mkMeta r)]).length)
            simp only [List.length_append, List.length_cons, List.length_nil] at this ⊢
            omega
        · have := ih (buf ++ [(recTxt r, mkMeta r)]) st total
          simp only [List.length_append, List.length_cons, List.length_nil] at this ⊢
          omega

/-- With limit `N` and positive batch size, the total never exceeds `N` by
more than one batch. -/
theorem indexLoop_total_le (ts bs N : Nat) (hbs : 0 < bs) :
    ∀ (input : List (Option ChunkRec)) buf (st : Store) total,
      buf.length < bs → (total < N ∨ total = 0) →
      (indexLoop ts bs (some N) input buf st total).2 ≤ N + bs := by
  intro input
  induction input with
  | nil =>
    intro buf st total hbuf htot
    simp only [indexLoop]
    omega
  | cons o rest ih =>
    intro buf st total hbuf htot
    cases o with
    | none => exact ih buf st total hbuf htot
    | some r =>
      simp only [indexLoop]
      by_cases hr : dropsRec r
      · rw [if_pos hr]
        exact ih buf st total hbuf htot
      · rw [if_neg hr]
        split
        · split
          · next hlim =>
            simp only [limitReached] at hlim
            simp only [List.length_append, List.length_cons, List.length_nil] at *
            omega
          · refine ih [] _ _ (by simpa using hbs) (Or.inl ?_)
            next hlim =>
            simp only [limitReached] at hlim
            simp only [List.length_append, List.length_cons, List.length_nil] at *
            omega
        · refine ih _ st total ?_ htot
          simp only [List.length_append, List.length_cons, List.length_nil] at *
          omega

/-- Number of store points whose payload carries the given
`(source_url, chunk_index)` pair. -/
def countPair (st : Store) (src : Option (List Char)) (idx : Option Int) : Nat :=
  st.countP fun e => e.2.source == src && e.2.chunk_index == idx

/-- Parameters of one indexing run. -/
structure RunParams where
  input : List (Option ChunkRec)
  bs : Nat
  limit : Option Nat
  ts : Nat

/-- A sequence of indexing runs over the store, starting from empty. -/
def runAll (runs : List RunParams) : Store :=
  runs.foldl (fun st run => (index_dataset run.input run.bs run.limit run.ts st).1) []

/-- The valid records fed by some run of the sequence. -/
def recOf (runs : List RunParams) (r : ChunkRec) : Prop :=
  ∃ run ∈ runs, some r ∈ run.input ∧ ¬ dropsRec r

/-- Store well-formedness: distinct ids, and every point derives from some
record of the universe `U` via the deterministic id. -/
def wfStore (U : ChunkRec → Prop) (st : Store) : Prop :=
  (st.map Prod.fst).Nodup ∧
  ∀ e ∈ st, ∃ r, U r ∧ ¬ dropsRec r ∧ e.2.source = r.url ∧
    e.2.chunk_index = r.chunk_index ∧ e.2.text = recTxt r ∧
    e.1 = pointId (r.url.getD []) (pyStrInt r.chunk_index) (recTxt r)

theorem upsertPoint_wf {U : ChunkRec → Prop} {st : Store} (hwf : wfStore U st)
    {p : Nat × Payload} {r : ChunkRec} (hU : U r) (hv : ¬ dropsRec r)
    (hpsrc : p.2.source = r.url) (hpcix : p.2.chunk_index = r.chunk_index)
    (hptxt : p.2.text = recTxt r)
    (hpfst : p.1 = pointId (r.url.getD []) (pyStrInt r.chunk_index) (recTxt r)) :
    wfStore U (upsertPoint st p) := by
  obtain ⟨hnd, hent⟩ := hwf
  have hpgood : ∃ r', U r' ∧ ¬ dropsRec r' ∧ p.2.source = r'.url ∧
      p.2.chunk_index = r'.chunk_index ∧ p.2.text = recTxt r' ∧
      p.1 = pointId (r'.url.getD []) (pyStrInt r'.chunk_index) (recTxt r') :=
    ⟨r, hU, hv, hpsrc, hpcix, hptxt, hpfst⟩
  unfold upsertPoint
  split
  · refine ⟨?_, ?_⟩
    · have hmap : List.map Prod.fst (List.map (fun e => if e.1 == p.1 then p else e) st)
          = List.map Prod.fst st := by
        rw [List.map_map]
        refine List.map_congr_left ?_
        intro e _
        show Prod.fst (if e.1 == p.1 then p else e) = e.1
        rcases eq_or_ne e.1 p.1 with he | he
        · rw [if_pos (by rw [he]; exact beq_self_eq_true _)]
          exact he.symm
        · rw [if_neg (by simp [he])]
      rw [hmap]; exact hnd
    · intro x hx
      rcases List.mem_map.mp hx with ⟨e, he, hfe⟩
      rcases eq_or_ne e.1 p.1 with hc | hc
      · rw [if_pos (by rw [hc]; exact beq_self_eq_true _)] at hfe
        subst hfe
        exact hpgood
      · rw [if_neg (by simp [hc])] at hfe
        subst hfe
        exact hent e he
  · refine ⟨?_, ?_⟩
    · rw [List.map_append]
      refine List.Nodup.append hnd (by simp) ?_
      intro a ha hb
      simp only [List.map_cons, List.map_nil, List.mem_singleton] at hb
      subst hb
      next hany =>
      rcases List.mem_map.mp ha with ⟨e, he, hfe⟩
      refine hany (List.any_eq_true.mpr ⟨e, he, ?_⟩)
      rw [hfe]
      exact beq_self_eq_true _
    · intro x hx
      rcases List.mem_append.mp hx with hx' | hx'
      · exact hent x hx'
      · simp only [List.mem_singleton] at hx'
        subst hx'
        exact hpgood

/-- Every buffered entry comes from a valid record of the universe. -/
def bufOK (U : ChunkRec → Prop) (buf : List (List Char × Meta)) : Prop :=
  ∀ tm ∈ buf, ∃ r, U r ∧ ¬ dropsRec r ∧ tm = (recTxt r, mkMeta r)

theorem upsertBatch_wf {U : ChunkRec → Prop} {ts : Nat} :
    ∀ {buf : List (List Char × Meta)} {st : Store},
      wfStore U st → bufOK U buf → wfStore U (upsertBatch ts st buf) := by
  intro buf
  induction buf with
  | nil => intro st hwf _; exact hwf
  | cons tm rest ih =>
    intro st hwf hbuf
    obtain ⟨r, hU, hv, htm⟩ := hbuf tm (by simp)
    have step : upsertBatch ts st (tm :: rest)
        = upsertBatch ts (upsertPoint st (pointOf ts tm.1 tm.2)) rest := rfl
    rw [step, htm]
    refine ih (upsertPoint_wf hwf hU hv ?_ ?_ ?_ ?_) (fun x hx => hbuf x (by simp [hx]))
    all_goals simp only [pointOf, mkMeta]

theorem indexLoop_wf {U : ChunkRec → Prop} {ts bs : Nat} {limit : Option Nat} :
    ∀ (input : List (Option ChunkRec)) buf (st : Store) total,
      (∀ r, some r ∈ input → ¬ dropsRec r → U r) → bufOK U buf → wfStore U st →
      wfStore U (indexLoop ts bs limit input buf st total).1 := by
  intro input
  induction input with
  | nil =>
    intro buf st total _ hbuf hwf
    exact upsertBatch_wf hwf hbuf
  | cons o rest ih =>
    intro buf st total hin hbuf hwf
    cases o with
    | none => exact ih buf st total (fun r hr hv => hin r (by simp [hr]) hv) hbuf hwf
    | some q =>
      simp only [indexLoop]
      by_cases hq : dropsRec q
      · rw [if_pos hq]
        exact ih buf st total (fun r hr hv => hin r (by simp [hr]) hv) hbuf hwf
      · rw [if_neg hq]
        have hbuf' : bufOK U (buf ++ [(recTxt q, mkMeta q)]) := by
          intro tm htm
          rcases List.mem_append.mp htm with h' | h'
          · exact hbuf tm h'
          · simp only [List.mem_singleton] at h'
            exact ⟨q, hin q (by simp) hq, hq, h'⟩
        split
        · split
          · exact upsertBatch_wf hwf hbuf'
          · exact ih [] _ _ (fun r hr hv => hin r (by simp [hr]) hv)
              (by intro tm htm; simp at htm) (upsertBatch_wf hwf hbuf')
        · exact ih _ st total (fun r hr hv => hin r (by simp [hr]) hv) hbuf' hwf

theorem length_le_one_of_nodup_all_eq {l : List Nat} (hnd : l.Nodup)
    (hall : ∀ a ∈ l, ∀ b ∈ l, a = b) : l.length ≤ 1 := by
  cases l with
  | nil => simp
  | cons a rest =>
    cases rest with
    | nil => simp
    | cons b r2 =>
      exfalso
      have hab : a = b := hall a (by simp) b (by simp)
      rw [List.nodup_cons] at hnd
      exact hnd.1 (by simp [hab])

/-- In a well-formed store over a text-consistent universe, at most one point
per `(source_url, chunk_index)` pair. -/
theorem wfStore_countPair_le_one {U : ChunkRec → Prop} {st : Store}
    (hwf : wfStore U st)
    (H : ∀ r1 r2, U r1 → U r2 → r1.url = r2.url → r1.chunk_index = r2.chunk_index →
      recTxt r1 = recTxt r2)
    (src : Option (List Char)) (idx : Option Int) : countPair st src idx ≤ 1 := by
  obtain ⟨hnd, hent⟩ := hwf
  unfold countPair
  rw [List.countP_eq_length_filter]
  set q : Nat × Payload → Bool := fun e => e.2.source == src && e.2.chunk_index == idx with hq
  have hsub : List.Sublist ((st.filter q).map Prod.fst) (st.map Prod.fst) :=
    List.Sublist.map _ (List.filter_sublist st)
  have hnd' : ((st.filter q).map Prod.fst).Nodup := List.Nodup.sublist hsub hnd
  have hall : ∀ a ∈ (st.filter q).map Prod.fst, ∀ b ∈ (st.filter q).map Prod.fst, a = b := by
    intro a ha b hb
    rcases List.mem_map.mp ha with ⟨e1, he1, rfl⟩
    rcases List.mem_map.mp hb with ⟨e2, he2, rfl⟩
    have he1' := List.mem_filter.mp he1
    have he2' := List.mem_filter.mp he2
    obtain ⟨r1, hU1, _, hs1, hc1, _, hid1⟩ := hent e1 he1'.1
    obtain ⟨r2, hU2, _, hs2, hc2, _, hid2⟩ := hent e2 he2'.1
    have hq1 := he1'.2
    have hq2 := he2'.2
    simp only [hq, Bool.and_eq_true, beq_iff_eq] at hq1 hq2
    have hurl : r1.url = r2.url := by rw [← hs1, ← hs2, hq1.1, hq2.1]
    have hcix : r1.chunk_index = r2.chunk_index := by rw [← hc1, ← hc2, hq1.2, hq2.2]
    have htxt : recTxt r1 = recTxt r2 := H r1 r2 hU1 hU2 hurl hcix
    rw [hid1, hid2, hurl, hcix, htxt]
  have := length_le_one_of_nodup_all_eq hnd' hall
  simpa using this

theorem runAll_wf (runs : List RunParams) : wfStore (recOf runs) (runAll runs) := by
  unfold runAll
  have aux : ∀ (l : List RunParams) (st : Store),
      (∀ run ∈ l, ∀ r, some r ∈ run.input → ¬ dropsRec r → recOf runs r) →
      wfStore (recOf runs) st →
      wfStore (recOf runs)
        (l.foldl (fun st run => (index_dataset run.input run.bs run.limit run.ts st).1) st) := by
    intro l
    induction l with
    | nil => intro st _ hwf; exact hwf
    | cons run rest ih =>
      intro st hl hwf
      simp only [List.foldl_cons]
      refine ih _ (fun rn hrn r hr hv => hl rn (by simp [hrn]) r hr hv) ?_
      exact indexLoop_wf run.input [] st 0 (hl run (by simp)) (by intro tm htm; simp at htm) hwf
  refine aux runs [] ?_ ⟨by simp, by simp⟩
  intro run hrun r hr hv
  exact ⟨run, hrun, hr, hv⟩

end Rag

/-- C10: the Indexer silently drops every chunk record whose stripped text is
shorter than 40 characters: such a record is never embedded, never upserted
and never counted — the run's final store and total are exactly those of the
same input without the record. -/
theorem claim_c10_short_records_dropped (pre post : List (Option Rag.ChunkRec))
    (r : Rag.ChunkRec) (bs : Nat) (limit : Option Nat) (ts : Nat) (st : Rag.Store)
    (h : (Rag.recTxt r).length < 40) :
    Rag.index_dataset (pre ++ some r :: post) bs limit ts st
      = Rag.index_dataset (pre ++ post) bs limit ts st :=
  Rag.indexLoop_drop ts bs limit r (Or.inr h) pre post [] st 0

/-- Witness for C10: a well-formed record whose text `"too short"` has fewer
than 40 characters is dropped. -/
theorem claim_c10_witness :
    (Rag.recTxt ⟨some "http://x".data, some "t".data, none, some 0, some "too short".data⟩).length < 40 ∧
    Rag.index_dataset [some ⟨some "http://x".data, some "t".data, none, some 0, some "too short".data⟩]
        64 none 7 []
      = Rag.index_dataset [] 64 none 7 [] :=
  ⟨by decide,
   claim_c10_short_records_dropped [] []
     ⟨some "http://x".data, some "t".data, none, some 0, some "too short".data⟩
     64 none 7 [] (by decide)⟩

/-- C7: with `limit = N` and at least `N` valid chunk records in the input,
`index_dataset` indexes at least `N` chunks and at most `N` plus one batch
(the limit is only checked after completing the in-flight batch). -/
theorem claim_c7_batch_limit (input : List (Option Rag.ChunkRec)) (bs N ts : Nat)
    (st : Rag.Store) (hbs : 0 < bs) (hN : N ≤ Rag.countValid input) :
    N ≤ (Rag.index_dataset input bs (some N) ts st).2 ∧
    (Rag.index_dataset input bs (some N) ts st).2 ≤ N + bs := by
  constructor
  · have h := Rag.indexLoop_total_ge ts bs N input [] st 0
    simp only [List.length_nil] at h
    have : min N (0 + 0 + Rag.countValid input) = N := by omega
    rw [this] at h
    exact h
  · exact Rag.indexLoop_total_le ts bs N hbs input [] st 0 (by simpa using hbs) (Or.inr rfl)

/-- Input with one valid (40-character) record, for the C7 witness. -/
def c7rec : Rag.ChunkRec :=
  ⟨some "http://x/a".data, none, none, some 0,
   some "0123456789012345678901234567890123456789".data⟩

/-- Witness for C7 at one valid record, `batch_size = 1`, `limit = 1`. -/
theorem claim_c7_witness :
    0 < 1 ∧ 1 ≤ Rag.countValid [some c7rec] ∧
    (1 ≤ (Rag.index_dataset [some c7rec] 1 (some 1) 5 []).2 ∧
     (Rag.index_dataset [some c7rec] 1 (some 1) 5 []).2 ≤ 1 + 1) :=
  ⟨by decide, by decide, claim_c7_batch_limit [some c7rec] 1 1 5 [] (by decide) (by decide)⟩

/-- C6: re-indexing the identical `(source_url, chunk_index, text)` computes
the same deterministic point id — `sha1(src + "|" + idx + "|" + sha1(text))`
truncated to the leading 16 hex digits — so the second upsert replaces the
first and the store holds exactly one point. -/
theorem claim_c6_identical_reindexing_idempotent (r : Rag.ChunkRec) (ts1 ts2 : Nat)
    (h : ¬ Rag.dropsRec r) :
    (Rag.index_dataset [some r] 64 none ts2
        (Rag.index_dataset [some r] 64 none ts1 []).1).1
      = [Rag.pointOf ts2 (Rag.recTxt r) (Rag.mkMeta r)] ∧
    ((Rag.index_dataset [some r] 64 none ts2
        (Rag.index_dataset [some r] 64 none ts1 []).1).1).length = 1 ∧
    (Rag.pointOf ts2 (Rag.recTxt r) (Rag.mkMeta r)).1
      = Rag.pointId (r.url.getD []) (Rag.pyStrInt r.chunk_index) (Rag.recTxt r) := by
  have key : ∀ ts (st : Rag.Store), Rag.index_dataset [some r] 64 none ts st
      = (Rag.upsertPoint st (Rag.pointOf ts (Rag.recTxt r) (Rag.mkMeta r)), 1) := by
    intro ts st
    simp only [Rag.index_dataset, Rag.indexLoop, if_neg h, List.nil_append,
      List.length_cons, List.length_nil]
    rw [if_neg (by norm_num)]
    simp only [Rag.indexLoop, Rag.upsertBatch, List.map_cons, List.map_nil,
      List.foldl_cons, List.foldl_nil, Nat.zero_add]
  have hfst : (Rag.pointOf ts1 (Rag.recTxt r) (Rag.mkMeta r)).1
      = (Rag.pointOf ts2 (Rag.recTxt r) (Rag.mkMeta r)).1 := rfl
  have hnil : Rag.upsertPoint [] (Rag.pointOf ts1 (Rag.recTxt r) (Rag.mkMeta r))
      = [Rag.pointOf ts1 (Rag.recTxt r) (Rag.mkMeta r)] := by
    unfold Rag.upsertPoint
    rw [if_neg (by simp)]
    rfl
  have hcond : (List.any [Rag.pointOf ts1 (Rag.recTxt r) (Rag.mkMeta r)]
      fun e => e.1 == (Rag.pointOf ts2 (Rag.recTxt r) (Rag.mkMeta r)).1) = true := by
    simp only [List.any_cons, List.any_nil, Bool.or_false]
    rw [← hfst]
    exact beq_self_eq_true _
  have hrepl : Rag.upsertPoint [Rag.pointOf ts1 (Rag.recTxt r) (Rag.mkMeta r)]
        (Rag.pointOf ts2 (Rag.recTxt r) (Rag.mkMeta r))
      = [Rag.pointOf ts2 (Rag.recTxt r) (Rag.mkMeta r)] := by
    unfold Rag.upsertPoint
    rw [if_pos hcond]
    simp only [List.map_cons, List.map_nil]
    rw [if_pos (by rw [← hfst]; exact beq_self_eq_true _)]
  refine ⟨?_, ?_, ?_⟩
  · rw [key ts1 [], key ts2]
    simp only [hnil]
    exact hrepl
  · rw [key ts1 [], key ts2]
    simp only [hnil, hrepl]
    rfl
  · simp only [Rag.pointOf, Rag.mkMeta]

/-- Record used by the C6 witness (text exactly 40 characters). -/
def c6rec : Rag.ChunkRec :=
  ⟨some "http://site/a".data, some "t".data, none, some 2,
   some "abcdefghijklmnopqrstuvwxyzabcdefghijklmn".data⟩

/-- Witness for C6: the double-indexed store holds exactly one point. -/
theorem claim_c6_witness :
    ¬ Rag.dropsRec c6rec ∧
    ((Rag.index_dataset [some c6rec] 64 none 9
        (Rag.index_dataset [some c6rec] 64 none 3 []).1).1).length = 1 :=
  ⟨by decide, (claim_c6_identical_reindexing_idempotent c6rec 3 9 (by decide)).2.1⟩

/-- Record `("u", 0)` with text of forty `a`s. -/
def c1recA : Rag.ChunkRec :=
  ⟨some "u".data, none, none, some 0,
   some "aaaaaaaaaaaaaaaaaaaaaaaaaaaaaaaaaaaaaaaa".data⟩

/-- Record `("u", 0)` with text of forty `b`s. -/
def c1recB : Rag.ChunkRec :=
  ⟨some "u".data, none, none, some 0,
   some "bbbbbbbbbbbbbbbbbbbbbbbbbbbbbbbbbbbbbbbb".data⟩

/-- C1 counterexample: two indexing runs storing different text at the same
`(source_url, chunk_index) = ("u", 0)` leave TWO distinct points for that
pair — the content hash is part of the id, so the second upsert inserts a
fresh point instead of replacing the first. -/
theorem claim_c1_counterexample :
    Rag.countPair
      (Rag.index_dataset [some c1recB] 64 none 200
        (Rag.index_dataset [some c1recA] 64 none 100 []).1).1
      (some "u".data) (some 0) = 2 := by decide

/-- C1 (amended): after any sequence of indexing runs in which all valid
records sharing a `(source_url, chunk_index)` pair also share their stripped
text, the store holds at most one point per pair. -/
theorem claim_c1_amended_unique_pair (runs : List Rag.RunParams)
    (H : ∀ r1 r2 : Rag.ChunkRec, Rag.recOf runs r1 → Rag.recOf runs r2 →
      r1.url = r2.url → r1.chunk_index = r2.chunk_index → Rag.recTxt r1 = Rag.recTxt r2)
    (src : Option (List Char)) (idx : Option Int) :
    Rag.countPair (Rag.runAll runs) src idx ≤ 1 :=
  Rag.wfStore_countPair_le_one (Rag.runAll_wf runs) H src idx

/-- Witness for amended C1: two runs of the same record keep a single point. -/
theorem claim_c1_amended_witness :
    Rag.countPair
      (Rag.runAll [⟨[some c1recA], 64, none, 100⟩, ⟨[some c1recA], 64, none, 200⟩])
      (some "u".data) (some 0) ≤ 1 := by
  refine claim_c1_amended_unique_pair _ ?_ _ _
  have honly : ∀ r' : Rag.ChunkRec,
      Rag.recOf [⟨[some c1recA], 64, none, 100⟩, ⟨[some c1recA], 64, none, 200⟩] r' →
      r' = c1recA := by
    intro r' hr
    obtain ⟨run, hrun, hm, -⟩ := hr
    have hin : run.input = [some c1recA] := by
      rcases List.mem_cons.mp hrun with rfl | h2
      · rfl
      · rcases List.mem_singleton.mp h2 with rfl
        rfl
    rw [hin] at hm
    exact Option.some.inj (List.mem_singleton.mp hm)
  intro r1 r2 h1 h2 _ _
  rw [honly r1 h1, honly r2 h2]

namespace Re

/-!
A small backtracking matcher covering exactly the regular expressions used by
`app.py` and `extract_matches.py`: sequences of literals, literal
alternations, and greedy/lazy counted character classes, with Python
`re.search` / `re.match` / `re.fullmatch` semantics (leftmost match; at a
given start, candidates tried in the regex's preference order with full
backtracking).
-/

/-- One regex token. -/
inductive Tok
  | lit (cs : List Char)
  | oneOf (alts : List (List Char))
  | cls (p : Char → Bool) (lo : Nat) (hi : Option Nat) (lazy : Bool)

/-- Match a literal at the front, returning the rest. -/
def litMatch : List Char → List Char → Option (List Char)
  | [], rest => some rest
  | _ :: _, [] => none
  | c :: cs, d :: ds => if c = d then litMatch cs ds else none

/-- Candidate repeat counts in preference order (`lo..m` for lazy,
`m..lo` for greedy). -/
def clsCounts (lo m : Nat) (lz : Bool) : List Nat :=
  if lz then (List.range (m + 1)).drop lo
  else ((List.range (m + 1)).drop lo).reverse

/-- Token-sequence matcher with backtracking; returns one captured string per
token.  The fuel is one unit per token, so `toks.length + 1` always runs to
completion. -/
def matchToksF : Nat → List Tok → List Char → Bool → Option (List (List Char))
  | 0, _, _, _ => none
  | _ + 1, [], rest, reqEnd => if reqEnd && !rest.isEmpty then none else some []
  | fuel + 1, t :: toks, rest, reqEnd =>
    match t with
    | Tok.lit cs =>
      match litMatch cs rest with
      | some rest' => (matchToksF fuel toks rest' reqEnd).map (fun caps => cs :: caps)
      | none => none
    | Tok.oneOf alts =>
      alts.findSome? fun alt =>
        match litMatch alt rest with
        | some rest' => (matchToksF fuel toks rest' reqEnd).map (fun caps => alt :: caps)
        | none => none
    | Tok.cls p lo hi lz =>
      let run := (rest.takeWhile p).length
      let m := match hi with | some h => min run h | none => run
      (clsCounts lo m lz).findSome? fun k =>
        (matchToksF fuel toks (rest.drop k) reqEnd).map (fun caps => rest.take k :: caps)

/-- Anchored match at the current position (`re.match` when `reqEnd = false`,
`re.fullmatch` when `reqEnd = true`). -/
def matchToks (toks : List Tok) (s : List Char) (reqEnd : Bool) :
    Option (List (List Char)) :=
  matchToksF (toks.length + 1) toks s reqEnd

/-- `re.search`: leftmost successful start position. -/
def searchF : Nat → List Tok → List Char → Option (List (List Char))
  | 0, _, _ => none
  | fuel + 1, toks, s =>
    match matchToks toks s false with
    | some caps => some caps
    | none =>
      match s with
      | [] => none
      | _ :: rest => searchF fuel toks rest

def reSearch (toks : List Tok) (s : List Char) : Option (List (List Char)) :=
  searchF (s.length + 1) toks s

/-- ASCII decimal digits (`\d`; the corpus only exercises ASCII digits). -/
def isDig (c : Char) : Bool := '0' ≤ c && c ≤ '9'

/-- `.` (any character but a newline). -/
def dotP (c : Char) : Bool := c != '\n'

/-- `int()` of a digit string. -/
def digitsToNat (l : List Char) : Nat := l.foldl (fun a c => a * 10 + (c.toNat - 48)) 0

end Re

namespace PyStr

/-- Python `<` on strings: lexicographic on code points (Char order is code
point order). -/
def strLt : List Char → List Char → Bool
  | [], [] => false
  | [], _ :: _ => true
  | _ :: _, [] => false
  | a :: as, b :: bs =>
    if a < b then true
    else if b < a then false
    else strLt as bs

/-- Python `<=` on strings. -/
def strLe (a b : List Char) : Bool := !(strLt b a)

theorem strLt_irrefl : ∀ a : List Char, strLt a a = false := by
  intro a
  induction a with
  | nil => rfl
  | cons x xs ih => simp [strLt, lt_irrefl, ih]

theorem strLt_trichotomy : ∀ a b : List Char,
    strLt a b = true ∨ a = b ∨ strLt b a = true := by
  intro a
  induction a with
  | nil => intro b; cases b <;> simp [strLt]
  | cons x xs ih =>
    intro b
    cases b with
    | nil => simp [strLt]
    | cons y ys =>
      rcases lt_trichotomy x y with h | h | h
      · left; simp [strLt, h]
      · subst h
        rcases ih ys with h2 | h2 | h2
        · left; simp [strLt, h2]
        · right; left; rw [h2]
        · right; right; simp [strLt, h2]
      · right; right; simp [strLt, h]

theorem strLt_asymm : ∀ a b : List Char, strLt a b = true → strLt b a = false := by
  intro a
  induction a with
  | nil => intro b _; cases b <;> simp [strLt]
  | cons x xs ih =>
    intro b hab
    cases b with
    | nil => simp [strLt] at hab
    | cons y ys =>
      simp only [strLt] at hab ⊢
      rcases lt_trichotomy x y with h | h | h
      · simp [h, lt_asymm h]
      · subst h
        simp only [lt_irrefl, if_false] at hab ⊢
        exact ih ys hab
      · simp [h, lt_asymm h] at hab

theorem strLt_trans : ∀ a b c : List Char,
    strLt a b = true → strLt b c = true → strLt a c = true := by
  intro a
  induction a with
  | nil =>
    intro b c hab hbc
    cases b with
    | nil => simp [strLt] at hab
    | cons y ys =>
      cases c with
      | nil => simp [strLt] at hbc
      | cons z zs => simp [strLt]
  | cons x xs ih =>
    intro b c hab hbc
    cases b with
    | nil => simp [strLt] at hab
    | cons y ys =>
      cases c with
      | nil => simp [strLt] at hbc
      | cons z zs =>
        simp only [strLt] at hab hbc ⊢
        rcases lt_trichotomy x y with h1 | h1 | h1
        · rcases lt_trichotomy y z with h2 | h2 | h2
          · simp [lt_trans h1 h2]
          · subst h2; simp [h1]
          · rw [if_neg (lt_asymm h2), if_pos h2] at hbc
            exact absurd hbc (by simp)
        · subst h1
          rw [if_neg (lt_irrefl x), if_neg (lt_irrefl x)] at hab
          rcases lt_trichotomy x z with h2 | h2 | h2
          · simp [h2]
          · subst h2
            rw [if_neg (lt_irrefl x), if_neg (lt_irrefl x)] at hbc
            rw [if_neg (lt_irrefl x), if_neg (lt_irrefl x)]
            exact ih ys zs hab hbc
          · rw [if_neg (lt_asymm h2), if_pos h2] at hbc
            exact absurd hbc (by simp)
        · rw [if_neg (lt_asymm h1), if_pos h1] at hab
          exact absurd hab (by simp)

theorem strLe_refl (a : List Char) : strLe a a = true := by
  unfold strLe
  rw [strLt_irrefl]
  rfl

theorem strLe_of_strLt {a b : List Char} (h : strLt a b = true) : strLe a b = true := by
  unfold strLe
  rw [strLt_asymm a b h]
  rfl

theorem strLe_trans {a b c : List Char} (hab : strLe a b = true)
    (hbc : strLe b c = true) : strLe a c = true := by
  unfold strLe at *
  simp only [Bool.not_eq_true'] at hab hbc ⊢
  by_contra hca
  have hca' : strLt c a = true := by
    cases h : strLt c a
    · rw [h] at hca; exact absurd rfl hca
    · rfl
  rcases strLt_trichotomy a b with h1 | h1 | h1
  · have := strLt_trans c a b hca' h1
    rw [this] at hbc; exact absurd hbc (by simp)
  · subst h1
    rw [hca'] at hbc; exact absurd hbc (by simp)
  · rw [h1] at hab; exact absurd hab (by simp)

theorem strLe_total (a b : List Char) : strLe a b = true ∨ strLe b a = true := by
  rcases strLt_trichotomy a b with h | h | h
  · left; exact strLe_of_strLt h
  · subst h; left; exact strLe_refl a
  · right; exact strLe_of_strLt h

theorem strLt_of_not_strLe {a b : List Char} (h : ¬ strLe a b = true) :
    strLt b a = true := by
  unfold strLe at h
  cases hx : strLt b a
  · rw [hx] at h; exact absurd rfl h
  · rfl

end PyStr

namespace App

open PyStr Re

/-!
`arabic_chatbot_final/app.py`: `_parse_ar_date`, `_format_matches`,
`find_matches_message`.  `MATCHES_BY_DATE` is modelled as an association list
date-key → match list; `now` (Python `datetime.now()`) is an explicit
argument, as is the raised-exception channel (`Except Unit`, standing for
`ValueError`/`OverflowError` from the `datetime` constructor and arithmetic).
-/

structure PyDate where
  year : Nat
  month : Nat
  day : Nat
deriving DecidableEq

def isLeap (y : Nat) : Bool := y % 4 == 0 && (y % 100 != 0 || y % 400 == 0)

def daysInMonth (y mo : Nat) : Nat :=
  if mo = 2 then (if isLeap y then 29 else 28)
  else if mo = 4 ∨ mo = 6 ∨ mo = 9 ∨ mo = 11 then 30
  else 31

/-- `datetime(y, mo, d)`: raises `ValueError` on an invalid calendar date
(month outside 1..12, day outside the month, year outside 1..9999). -/
def mkDateE (y mo d : Nat) : Except Unit PyDate :=
  if 1 ≤ y ∧ y ≤ 9999 ∧ 1 ≤ mo ∧ mo ≤ 12 ∧ 1 ≤ d ∧ d ≤ daysInMonth y mo
  then .ok ⟨y, mo, d⟩ else .error ()

/-- `(now + timedelta(days=1)).date()` (OverflowError past 9999-12-31). -/
def succDateE (d : PyDate) : Except Unit PyDate :=
  if d.day < daysInMonth d.year d.month then .ok ⟨d.year, d.month, d.day + 1⟩
  else if d.month < 12 then .ok ⟨d.year, d.month + 1, 1⟩
  else if d.year < 9999 then .ok ⟨d.year + 1, 1, 1⟩
  else .error ()

/-- `(now - timedelta(days=1)).date()` (OverflowError before 0001-01-01). -/
def predDateE (d : PyDate) : Except Unit PyDate :=
  if 1 < d.day then .ok ⟨d.year, d.month, d.day - 1⟩
  else if 1 < d.month then .ok ⟨d.year, d.month - 1, daysInMonth d.year (d.month - 1)⟩
  else if 1 < d.year then .ok ⟨d.year - 1, 12, 31⟩
  else .error ()

def natStr (n : Nat) : List Char := (toString n).data

/-- Zero-padded decimal of fixed width. -/
def padNum (w n : Nat) : List Char :=
  List.replicate (w - (natStr n).length) '0' ++ natStr n

/-- `date.isoformat()`: `YYYY-MM-DD`. -/
def isoFormat (d : PyDate) : List Char :=
  padNum 4 d.year ++ '-' :: (padNum 2 d.month ++ '-' :: padNum 2 d.day)

/-- `pat` is a prefix of `s`. -/
def startsAt : List Char → List Char → Bool
  | [], _ => true
  | _ :: _, [] => false
  | c :: cs, d :: ds => c = d && startsAt cs ds

/-- Python `pat in s` (substring containment). -/
def infixIn (pat : List Char) : List Char → Bool
  | [] => pat.isEmpty
  | c :: rest => startsAt pat (c :: rest) || infixIn pat rest

def containsAny (t : List Char) (ws : List String) : Bool :=
  ws.any fun w => infixIn w.data t

def chDashSlash (c : Char) : Bool := c = '-' || c = '/'

/-- The first numeric pattern: four digits, dash-or-slash, one or two
digits, dash-or-slash, one or two digits. -/
def ymdToks : List Tok :=
  [Tok.cls isDig 4 (some 4) false, Tok.cls chDashSlash 1 (some 1) false,
   Tok.cls isDig 1 (some 2) false, Tok.cls chDashSlash 1 (some 1) false,
   Tok.cls isDig 1 (some 2) false]

/-- The second numeric pattern: one or two digits, dash-or-slash, one or
two digits, dash-or-slash, two to four digits. -/
def dmyToks : List Tok :=
  [Tok.cls isDig 1 (some 2) false, Tok.cls chDashSlash 1 (some 1) false,
   Tok.cls isDig 1 (some 2) false, Tok.cls chDashSlash 1 (some 1) false,
   Tok.cls isDig 2 (some 4) false]

/-- `_parse_ar_date(user_text, now)`: relative keywords, then `YYYY-MM-DD`
style, then `D/M/Y`-vs-`M/D/Y` with the first-component-over-12 rule.
Returns `none` when no pattern is recognised; the error channel carries the
exceptions `datetime` raises on invalid dates. -/
def parse_ar_date (userText : List Char) (now : PyDate) :
    Except Unit (Option PyDate) := do
  let tn := normWs userText
  if infixIn "اليوم".data tn then
    return some now
  else if containsAny tn ["بكره", "بكرة", "غدا", "غداً", "غدوة"] then
    let d ← succDateE now
    return some d
  else if containsAny tn ["أمس", "امس", "بارح"] then
    let d ← predDateE now
    return some d
  else
    match reSearch ymdToks tn with
    | some caps =>
      let y := digitsToNat (caps.getD 0 [])
      let mo := digitsToNat (caps.getD 2 [])
      let d := digitsToNat (caps.getD 4 [])
      (mkDateE y mo d).map some
    | none =>
      match reSearch dmyToks tn with
      | some caps =>
        let a := digitsToNat (caps.getD 0 [])
        let b := digitsToNat (caps.getD 2 [])
        let c0 := digitsToNat (caps.getD 4 [])
        let c1 := if c0 < 100 then c0 + 2000 else c0
        if 12 < a then (mkDateE c1 b a).map some
        else (mkDateE c1 a b).map some
      | none => return none

/-- One row of `matches_clean.jsonl` as consumed by the formatter. -/
structure MatchRec where
  date : List Char
  time : List Char
  home : List Char
  away : List Char
  competition : List Char
  url : Option (List Char)
deriving DecidableEq

/-- Stable insertion by time key (Python `sorted(key=...)` is stable). -/
def insertByTime (m : MatchRec) : List MatchRec → List MatchRec
  | [] => [m]
  | x :: xs => if strLe m.time x.time then m :: x :: xs else x :: insertByTime m xs

def sortByTime (ms : List MatchRec) : List MatchRec := ms.foldr insertByTime []

/-- One line `- {time} | {home} ضد {away} — {comp}`. -/
def fmtMatch (m : MatchRec) : List Char :=
  "- ".data ++ m.time ++ " | ".data ++ m.home ++ " ضد ".data ++ m.away
    ++ " — ".data ++ m.competition

def joinNl : List (List Char) → List Char
  | [] => []
  | [l] => l
  | l :: rest => l ++ '\n' :: joinNl rest

/-- `_format_matches(matches)` (both call sites use `include_urls=False`). -/
def format_matches (ms : List MatchRec) : List Char :=
  joinNl ((sortByTime ms).map fmtMatch)

/-- Stable string insertion, for Python `sorted` over date keys. -/
def insertStr (a : List Char) : List (List Char) → List (List Char)
  | [] => [a]
  | x :: xs => if strLe a x then a :: x :: xs else x :: insertStr a xs

def sortStrs (l : List (List Char)) : List (List Char) := l.foldr insertStr []

/-- `MATCHES_BY_DATE.get(key, [])`. -/
def lookupDate (byDate : List (List Char × List MatchRec)) (key : List Char) :
    List MatchRec :=
  match byDate.find? (fun e => e.1 == key) with
  | some e => e.2
  | none => []

def clarifyMsg : List Char :=
  "من فضلك حدّد التاريخ (مثال: اليوم، بكرة، أو 2025-12-26).".data

def emptyDbMsg : List Char :=
  "قاعدة البيانات فارغة أو لم تُحمّل بشكل صحيح.".data

def headerMsg (key : List Char) (n : Nat) : List Char :=
  "مباريات يوم ".data ++ key ++ " (".data ++ natStr n ++ " مباراة):".data

def noMatchesLine (key : List Char) : List Char :=
  "لا توجد مباريات بتاريخ ".data ++ key ++ " في قاعدة البيانات.".data

def futureMsg (key nd : List Char) (n : Nat) : List Char :=
  noMatchesLine key ++ '\n' ::
    ("أقرب يوم فيه مباريات: ".data ++ nd ++ " (".data ++ natStr n ++ " مباراة):".data)

def pastMsg (key pd : List Char) (n : Nat) : List Char :=
  noMatchesLine key ++ '\n' ::
    ("آخر يوم مضى وفيه مباريات: ".data ++ pd ++ " (".data ++ natStr n ++ " مباراة):".data)

/-- `find_matches_message(user_text, now)` over an explicit dataset. -/
def find_matches_message (byDate : List (List Char × List MatchRec))
    (userText : List Char) (now : PyDate) : Except Unit (List Char) := do
  let td ← parse_ar_date userText now
  match td with
  | none => return clarifyMsg
  | some target =>
    let key := isoFormat target
    let ms := lookupDate byDate key
    if ms ≠ [] then
      return headerMsg key ms.length ++ '\n' :: format_matches ms
    else
      let keys := byDate.map Prod.fst
      match sortStrs (keys.filter fun d => strLt key d) with
      | nd :: _ =>
        let nxt := lookupDate byDate nd
        return futureMsg key nd nxt.length ++ '\n' :: format_matches (nxt.take 10)
      | [] =>
        match (sortStrs (keys.filter fun d => strLt d key)).reverse with
        | pd :: _ =>
          let prv := lookupDate byDate pd
          return pastMsg key pd prv.length ++ '\n' :: format_matches (prv.take 10)
        | [] => return emptyDbMsg

end App

namespace App

open PyStr

theorem insertStr_perm (a : List Char) (l : List (List Char)) :
    List.Perm (insertStr a l) (a :: l) := by
  induction l with
  | nil => exact List.Perm.refl _
  | cons x xs ih =>
    unfold insertStr
    split
    · exact List.Perm.refl _
    · exact List.Perm.trans (List.Perm.cons x ih) (List.Perm.swap a x xs)

theorem sortStrs_perm (l : List (List Char)) : List.Perm (sortStrs l) l := by
  induction l with
  | nil => exact List.Perm.refl _
  | cons x xs ih =>
    exact List.Perm.trans (insertStr_perm x (sortStrs xs)) (List.Perm.cons x ih)

/-- Ascending sortedness by the Python string order. -/
def StrSorted (l : List (List Char)) : Prop :=
  l.Pairwise fun x y => strLe x y = true

theorem insertStr_sorted (a : List Char) {l : List (List Char)} (h : StrSorted l) :
    StrSorted (insertStr a l) := by
  induction l with
  | nil => simp [insertStr, StrSorted]
  | cons x xs ih =>
    rcases List.pairwise_cons.mp h with ⟨hx, hxs⟩
    unfold insertStr
    split
    · next hle =>
      refine List.pairwise_cons.mpr ⟨?_, h⟩
      intro b hb
      rcases List.mem_cons.mp hb with rfl | hb'
      · exact hle
      · exact strLe_trans hle (hx b hb')
    · next hnle =>
      have hxa : strLe x a = true := strLe_of_strLt (strLt_of_not_strLe hnle)
      refine List.pairwise_cons.mpr ⟨?_, ih hxs⟩
      intro b hb
      have hb' : b ∈ a :: xs := (insertStr_perm a xs).mem_iff.mp hb
      rcases List.mem_cons.mp hb' with rfl | hb''
      · exact hxa
      · exact hx b hb''

theorem sortStrs_sorted (l : List (List Char)) : StrSorted (sortStrs l) := by
  induction l with
  | nil => simp [sortStrs, StrSorted]
  | cons x xs ih => exact insertStr_sorted x ih

end App

deriving instance DecidableEq for Except

theorem exceptOk_bind {α β γ : Type} (x : α) (k : α → Except γ β) :
    (Except.ok x >>= k : Except γ β) = k x := rfl

theorem exceptErr_bind {α β γ : Type} (e : γ) (k : α → Except γ β) :
    (Except.error e >>= k : Except γ β) = Except.error e := rfl

/-- C2 counterexample: on the free-text query `"2025-13-40"` (a numeric date
pattern denoting no valid calendar date) `find_matches_message` raises
`ValueError` from the `datetime` constructor instead of returning a string. -/
theorem claim_c2_counterexample :
    App.find_matches_message [] ("2025-13-40".data) ⟨2025, 8, 14⟩ = .error () := by
  decide

/-- C2 (amended): `find_matches_message` returns a string whenever
`_parse_ar_date` does not raise, and every exception it raises is exactly an
exception of `_parse_ar_date` (the `datetime` constructor on an invalid
numeric date, or date arithmetic overflow); formatting and fallback lookup
never raise. -/
theorem claim_c2_amended_raises_only_on_invalid_dates
    (byDate : List (List Char × List App.MatchRec)) (s : List Char) (now : App.PyDate) :
    (∀ x, App.parse_ar_date s now = .ok x →
      ∃ msg, App.find_matches_message byDate s now = .ok msg) ∧
    (∀ e, App.find_matches_message byDate s now = .error e →
      App.parse_ar_date s now = .error e) := by
  have main : ∀ x, App.parse_ar_date s now = .ok x →
      ∃ msg, App.find_matches_message byDate s now = .ok msg := by
    intro x hx
    unfold App.find_matches_message
    rw [hx, exceptOk_bind]
    cases x with
    | none => exact ⟨_, rfl⟩
    | some target =>
      dsimp only
      split
      · exact ⟨_, rfl⟩
      · split
        · exact ⟨_, rfl⟩
        · split
          · exact ⟨_, rfl⟩
          · exact ⟨_, rfl⟩
  refine ⟨main, ?_⟩
  intro e he
  cases hp : App.parse_ar_date s now with
  | error e' =>
    unfold App.find_matches_message at he
    rw [hp, exceptErr_bind] at he
  | ok x =>
    obtain ⟨msg, hmsg⟩ := main x hp
    rw [hmsg] at he
    cases he

/-- Witness for amended C2 at the valid query `"2025-12-26"`. -/
theorem claim_c2_amended_witness :
    ∃ msg, App.find_matches_message [] ("2025-12-26".data) ⟨2025, 8, 14⟩ = .ok msg :=
  (claim_c2_amended_raises_only_on_invalid_dates [] ("2025-12-26".data) ⟨2025, 8, 14⟩).1
    (some ⟨2025, 12, 26⟩) (by decide)

/-- C8: when the resolved query date has no exact entry, `find_matches_message`
falls back to the nearest future date (minimum stored date above the key),
else the nearest past date (maximum stored date below the key), showing at
most 10 matches of the fallback day; an empty dataset yields the explicit
empty-dataset message. -/
theorem claim_c8_nearest_date_fallback (byDate : List (List Char × List App.MatchRec))
    (s : List Char) (now : App.PyDate) (d : App.PyDate)
    (hparse : App.parse_ar_date s now = .ok (some d))
    (hnone : App.lookupDate byDate (App.isoFormat d) = []) :
    ((∃ k ∈ byDate.map Prod.fst, PyStr.strLt (App.isoFormat d) k = true) →
      ∃ nd, nd ∈ byDate.map Prod.fst ∧ PyStr.strLt (App.isoFormat d) nd = true ∧
        (∀ k ∈ byDate.map Prod.fst, PyStr.strLt (App.isoFormat d) k = true →
          PyStr.strLe nd k = true) ∧
        App.find_matches_message byDate s now
          = .ok (App.futureMsg (App.isoFormat d) nd (App.lookupDate byDate nd).length
              ++ '\n' :: App.format_matches ((App.lookupDate byDate nd).take 10)) ∧
        ((App.lookupDate byDate nd).take 10).length ≤ 10) ∧
    ((∀ k ∈ byDate.map Prod.fst, ¬ PyStr.strLt (App.isoFormat d) k = true) →
      (∃ k ∈ byDate.map Prod.fst, PyStr.strLt k (App.isoFormat d) = true) →
      ∃ pd, pd ∈ byDate.map Prod.fst ∧ PyStr.strLt pd (App.isoFormat d) = true ∧
        (∀ k ∈ byDate.map Prod.fst, PyStr.strLt k (App.isoFormat d) = true →
          PyStr.strLe k pd = true) ∧
        App.find_matches_message byDate s now
          = .ok (App.pastMsg (App.isoFormat d) pd (App.lookupDate byDate pd).length
              ++ '\n' :: App.format_matches ((App.lookupDate byDate pd).take 10)) ∧
        ((App.lookupDate byDate pd).take 10).length ≤ 10) ∧
    (byDate = [] → App.find_matches_message byDate s now = .ok App.emptyDbMsg) := by
  have hred : App.find_matches_message byDate s now
      = (match App.sortStrs ((byDate.map Prod.fst).filter
            fun k => PyStr.strLt (App.isoFormat d) k) with
         | nd :: _ => .ok (App.futureMsg (App.isoFormat d) nd
             (App.lookupDate byDate nd).length
             ++ '\n' :: App.format_matches ((App.lookupDate byDate nd).take 10))
         | [] =>
           match (App.sortStrs ((byDate.map Prod.fst).filter
               fun k => PyStr.strLt k (App.isoFormat d))).reverse with
           | pd :: _ => .ok (App.pastMsg (App.isoFormat d) pd
               (App.lookupDate byDate pd).length
               ++ '\n' :: App.format_matches ((App.lookupDate byDate pd).take 10))
           | [] => .ok App.emptyDbMsg) := by
    unfold App.find_matches_message
    rw [hparse, exceptOk_bind]
    dsimp only
    rw [hnone, if_neg (by simp)]
    rfl
  refine ⟨?_, ?_, ?_⟩
  · rintro ⟨k0, hk0, hlt0⟩
    have hk0f : k0 ∈ (byDate.map Prod.fst).filter
        (fun k => PyStr.strLt (App.isoFormat d) k) :=
      List.mem_filter.mpr ⟨hk0, hlt0⟩
    obtain ⟨nd, rest, heq⟩ : ∃ nd rest,
        App.sortStrs ((byDate.map Prod.fst).filter
          fun k => PyStr.strLt (App.isoFormat d) k) = nd :: rest := by
      cases hcase : App.sortStrs ((byDate.map Prod.fst).filter
          fun k => PyStr.strLt (App.isoFormat d) k) with
      | nil =>
        exfalso
        have hm := (App.sortStrs_perm _).mem_iff.mpr hk0f
        rw [hcase] at hm
        simp at hm
      | cons a b => exact ⟨a, b, rfl⟩
    have hndmem : nd ∈ (byDate.map Prod.fst).filter
        (fun k => PyStr.strLt (App.isoFormat d) k) := by
      have : nd ∈ App.sortStrs ((byDate.map Prod.fst).filter
          fun k => PyStr.strLt (App.isoFormat d) k) := by
        rw [heq]; simp
      exact (App.sortStrs_perm _).mem_iff.mp this
    obtain ⟨hndk, hndlt⟩ := List.mem_filter.mp hndmem
    refine ⟨nd, hndk, hndlt, ?_, ?_, ?_⟩
    · intro k hk hklt
      have hkf : k ∈ (byDate.map Prod.fst).filter
          (fun x => PyStr.strLt (App.isoFormat d) x) :=
        List.mem_filter.mpr ⟨hk, hklt⟩
      have hkin : k ∈ nd :: rest := by
        rw [← heq]
        exact (App.sortStrs_perm _).mem_iff.mpr hkf
      rcases List.mem_cons.mp hkin with rfl | hkr
      · exact PyStr.strLe_refl k
      · have hsorted := App.sortStrs_sorted ((byDate.map Prod.fst).filter
          fun k => PyStr.strLt (App.isoFormat d) k)
        rw [heq] at hsorted
        exact (List.pairwise_cons.mp hsorted).1 k hkr
    · rw [hred, heq]
    · exact List.length_take_le 10 _
  · intro hnofut
    rintro ⟨k0, hk0, hlt0⟩
    have hfl_nil : (byDate.map Prod.fst).filter
        (fun k => PyStr.strLt (App.isoFormat d) k) = [] := by
      rw [List.filter_eq_nil]
      intro k hk
      simpa using hnofut k hk
    have hk0f : k0 ∈ (byDate.map Prod.fst).filter
        (fun k => PyStr.strLt k (App.isoFormat d)) :=
      List.mem_filter.mpr ⟨hk0, hlt0⟩
    obtain ⟨pd, rest, heqr⟩ : ∃ pd rest,
        (App.sortStrs ((byDate.map Prod.fst).filter
          fun k => PyStr.strLt k (App.isoFormat d))).reverse = pd :: rest := by
      cases hcase : (App.sortStrs ((byDate.map Prod.fst).filter
          fun k => PyStr.strLt k (App.isoFormat d))).reverse with
      | nil =>
        exfalso
        have hs : App.sortStrs ((byDate.map Prod.fst).filter
            fun k => PyStr.strLt k (App.isoFormat d)) = [] := by
          have := congrArg List.reverse hcase
          simpa using this
        have hm := (App.sortStrs_perm _).mem_iff.mpr hk0f
        rw [hs] at hm
        simp at hm
      | cons a b => exact ⟨a, b, rfl⟩
    have hpdmem : pd ∈ (byDate.map Prod.fst).filter
        (fun k => PyStr.strLt k (App.isoFormat d)) := by
      have h1 : pd ∈ (App.sortStrs ((byDate.map Prod.fst).filter
          fun k => PyStr.strLt k (App.isoFormat d))).reverse := by
        rw [heqr]; simp
      rw [List.mem_reverse] at h1
      exact (App.sortStrs_perm _).mem_iff.mp h1
    obtain ⟨hpdk, hpdlt⟩ := List.mem_filter.mp hpdmem
    refine ⟨pd, hpdk, hpdlt, ?_, ?_, ?_⟩
    · intro k hk hklt
      have hkf : k ∈ (byDate.map Prod.fst).filter
          (fun x => PyStr.strLt x (App.isoFormat d)) :=
        List.mem_filter.mpr ⟨hk, hklt⟩
      have hkin : k ∈ pd :: rest := by
        rw [← heqr, List.mem_reverse]
        exact (App.sortStrs_perm _).mem_iff.mpr hkf
      rcases List.mem_cons.mp hkin with rfl | hkr
      · exact PyStr.strLe_refl k
      · have hsorted := App.sortStrs_sorted ((byDate.map Prod.fst).filter
          fun k => PyStr.strLt k (App.isoFormat d))
        have hrev : (App.sortStrs ((byDate.map Prod.fst).filter
            fun k => PyStr.strLt k (App.isoFormat d))).reverse.Pairwise
              (fun a b => PyStr.strLe b a = true) := by
          rw [List.pairwise_reverse]
          exact hsorted
        rw [heqr] at hrev
        exact (List.pairwise_cons.mp hrev).1 k hkr
    · rw [hred, hfl_nil]
      rw [show App.sortStrs ([] : List (List Char)) = [] from rfl, heqr]
    · exact List.length_take_le 10 _
  · intro hempty
    subst hempty
    rw [hred]
    rfl

/-- Dataset with a single day `2025-08-20`, for the C8 witness. -/
def c8byDate : List (List Char × List App.MatchRec) :=
  [("2025-08-20".data,
    [⟨"2025-08-20".data, "20:00".data, "A".data, "B".data, "C".data, none⟩])]

/-- Witness for C8: query date `2025-08-14` has no entry; the nearest future
day `2025-08-20` is shown. -/
theorem claim_c8_witness :
    ∃ nd, nd ∈ c8byDate.map Prod.fst ∧
      PyStr.strLt (App.isoFormat ⟨2025, 8, 14⟩) nd = true ∧
      (∀ k ∈ c8byDate.map Prod.fst,
        PyStr.strLt (App.isoFormat ⟨2025, 8, 14⟩) k = true → PyStr.strLe nd k = true) ∧
      App.find_matches_message c8byDate ("2025-08-14".data) ⟨2025, 1, 1⟩
        = .ok (App.futureMsg (App.isoFormat ⟨2025, 8, 14⟩) nd
            (App.lookupDate c8byDate nd).length
            ++ '\n' :: App.format_matches ((App.lookupDate c8byDate nd).take 10)) ∧
      ((App.lookupDate c8byDate nd).take 10).length ≤ 10 :=
  (claim_c8_nearest_date_fallback c8byDate ("2025-08-14".data) ⟨2025, 1, 1⟩ ⟨2025, 8, 14⟩
    (by decide) (by decide)).1 (by decide)

namespace Crawl

/-!
`crawl.py`, `KooraCrawler.__init__` / `allowed` / `fetch`.  The robots gate
delegates to CPython's `urllib.robotparser.RobotFileParser`; its `read` and
`can_fetch` are modelled from the CPython standard library (they are not part
of this repository): `read()` catches only `HTTPError` (401/403 →
`disallow_all`, other 4xx → `allow_all`, 5xx → nothing), lets `URLError`
propagate, and on success `parse()` stamps `last_checked`; `can_fetch`
returns `False` whenever neither flag is set and `last_checked` is still 0,
i.e. when no robots.txt was ever parsed.
-/

/-- The `RobotFileParser` state the crawler can observe. -/
structure RobotsState where
  disallowAll : Bool
  allowAll : Bool
  lastChecked : Nat
  entriesDecision : String → String → Bool

/-- A fresh `RobotFileParser()`. -/
def robotsInit : RobotsState := ⟨false, false, 0, fun _ _ => true⟩

/-- The outcome of fetching `robots.txt` inside `read()`. -/
inductive ReadOutcome
  | parsed (decision : String → String → Bool)
  | httpError (code : Nat)
  | netError

/-- `RobotFileParser.read()`; a network-level failure (`URLError`)
propagates as an exception. -/
def applyRead (st : RobotsState) : ReadOutcome → Except Unit RobotsState
  | .parsed dec => .ok { st with lastChecked := 1, entriesDecision := dec }
  | .httpError c =>
    if c = 401 ∨ c = 403 then .ok { st with disallowAll := true }
    else if 400 ≤ c ∧ c < 500 then .ok { st with allowAll := true }
    else .ok st
  | .netError => .error ()

/-- `KooraCrawler.__init__`: `try: self.rp.read() except Exception: pass`. -/
def initRobots (o : ReadOutcome) : RobotsState :=
  match applyRead robotsInit o with
  | .ok st => st
  | .error _ => robotsInit

/-- CPython `RobotFileParser.can_fetch`. -/
def can_fetch (st : RobotsState) (ua url : String) : Bool :=
  if st.disallowAll then false
  else if st.allowAll then true
  else if st.lastChecked = 0 then false
  else st.entriesDecision ua url

/-- `KooraCrawler.allowed` — `can_fetch` under the crawler's user agent,
wrapped in a `try` that returns `True` only if `can_fetch` raises (it does
not, in this model). -/
def allowed (st : RobotsState) (url : String) : Bool :=
  can_fetch st "YallakoraCrawler/1.0 (+https://example.com/contact) python-requests" url

/-- What `fetch` does before touching the network: the robots skip sentinel
(returns `None` without a request) or an issued request. -/
inductive FetchAction
  | skipped
  | request
deriving DecidableEq

/-- The robots gate of `KooraCrawler.fetch`. -/
def fetchAction (st : RobotsState) (url : String) : FetchAction :=
  if allowed st url then .request else .skipped

end Crawl

/-- C3 counterexample: when `robots.txt` cannot be fetched at construction
(network error), the gate does NOT fail open — `allowed` returns `false` and
`fetch` returns the skipped sentinel for a concrete URL. -/
theorem claim_c3_counterexample :
    Crawl.allowed (Crawl.initRobots .netError) "https://www.yallakora.com/match-center"
      = false ∧
    Crawl.fetchAction (Crawl.initRobots .netError) "https://www.yallakora.com/match-center"
      = Crawl.FetchAction.skipped :=
  ⟨rfl, rfl⟩

/-- C3 (amended): a network-level robots.txt failure makes the crawler fail
CLOSED — every URL is disallowed and `fetch` returns the skipped sentinel
without issuing the request (the `except` branch in `__init__` leaves the
parser with `last_checked = 0`, and `can_fetch` then answers `False`);
fail-open happens only when the robots.txt fetch fails with an HTTP 4xx
status other than 401/403. -/
theorem claim_c3_amended_fail_closed (url : String) :
    (Crawl.allowed (Crawl.initRobots .netError) url = false ∧
     Crawl.fetchAction (Crawl.initRobots .netError) url = .skipped) ∧
    (∀ c : Nat, 400 ≤ c → c < 500 → c ≠ 401 → c ≠ 403 →
      Crawl.allowed (Crawl.initRobots (.httpError c)) url = true ∧
      Crawl.fetchAction (Crawl.initRobots (.httpError c)) url = .request) := by
  refine ⟨⟨rfl, rfl⟩, ?_⟩
  intro c h1 h2 h3 h4
  have hst : Crawl.initRobots (.httpError c)
      = { Crawl.robotsInit with allowAll := true } := by
    unfold Crawl.initRobots Crawl.applyRead
    dsimp only
    rw [if_neg (by simp [h3, h4]), if_pos ⟨h1, h2⟩]
  rw [hst]
  exact ⟨rfl, rfl⟩

/-- Witness for amended C3 at a concrete URL and HTTP 404. -/
theorem claim_c3_amended_witness :
    (400 ≤ 404 ∧ 404 < 500 ∧ 404 ≠ 401 ∧ 404 ≠ 403) ∧
    Crawl.allowed (Crawl.initRobots (.httpError 404)) "https://www.yallakora.com/x" = true ∧
    Crawl.fetchAction (Crawl.initRobots (.httpError 404)) "https://www.yallakora.com/x"
      = .request :=
  ⟨⟨by decide, by decide, by decide, by decide⟩,
   (claim_c3_amended_fail_closed "https://www.yallakora.com/x").2 404
     (by decide) (by decide) (by decide) (by decide)⟩

namespace UrlLib

/-!
The slice of CPython 3.11 `urllib.parse` that `crawl.py`'s `normalize_link`
exercises: `urlsplit`, `urlparse`, `urljoin`, `urldefrag`, `urlunsplit`,
`urlunparse` (the standard library is not part of this repository; the
definitions below follow its source).  The only modelled exception paths are
the two `ValueError`s of `urlsplit` on bracketed authorities: an unbalanced
`[`/`]` always raises, and a balanced bracketed host is conservatively
modelled as raising as well (CPython accepts valid IPv6/IPvFuture literals
there; no claim under verification reaches that case, and the amended C5
theorem excludes brackets altogether).  `_checknetloc`'s NFKC check is a
no-op for ASCII netlocs and is not modelled; the amended C5 theorem is
restricted to ASCII inputs accordingly.
-/

def containsChar (c : Char) (l : List Char) : Bool := l.any fun d => d = c

/-- Split at the first occurrence of `c` (`str.split(c, 1)` when present). -/
def splitFirst (c : Char) : List Char → Option (List Char × List Char)
  | [] => none
  | d :: ds =>
    if d = c then some ([], ds)
    else
      match splitFirst c ds with
      | some p => some (d :: p.1, p.2)
      | none => none

def splitFirstD (c : Char) (l : List Char) : List Char × List Char :=
  match splitFirst c l with
  | some p => p
  | none => (l, [])

/-- `str.split(c)` (keeps empty pieces), fuel-structured. -/
def splitAllF : Nat → Char → List Char → List (List Char)
  | 0, _, l => [l]
  | fuel + 1, c, l =>
    match splitFirst c l with
    | some p => p.1 :: splitAllF fuel c p.2
    | none => [l]

def splitAll (c : Char) (l : List Char) : List (List Char) := splitAllF l.length c l

def asciiLower (l : List Char) : List Char :=
  l.map fun c => if 'A' ≤ c ∧ c ≤ 'Z' then Char.ofNat (c.toNat + 32) else c

structure SplitResult where
  scheme : List Char
  netloc : List Char
  path : List Char
  query : List Char
  fragment : List Char
deriving DecidableEq

structure ParseResult where
  scheme : List Char
  netloc : List Char
  path : List Char
  params : List Char
  query : List Char
  fragment : List Char
deriving DecidableEq

def uses_relative : List String :=
  ["", "ftp", "http", "gopher", "nntp", "imap", "wais", "file", "https", "shttp",
   "mms", "prospero", "rtsp", "rtsps", "rtspu", "sftp", "svn", "svn+ssh", "ws", "wss"]

def uses_netloc : List String :=
  ["", "ftp", "http", "gopher", "nntp", "telnet", "imap", "wais", "file", "mms",
   "https", "shttp", "snews", "prospero", "rtsp", "rtsps", "rtspu", "rsync", "svn",
   "svn+ssh", "sftp", "nfs", "git", "git+ssh", "ws", "wss"]

def uses_params : List String :=
  ["", "ftp", "hdl", "prospero", "http", "imap", "https", "shttp", "rtsp",
   "rtsps", "rtspu", "sip", "sips", "mms", "sftp", "tel"]

def inList (s : List Char) (xs : List String) : Bool := xs.any fun x => x.data == s

def c0OrSpace (c : Char) : Bool := c.toNat ≤ 32

def unsafeByte (c : Char) : Bool := c = '\t' || c = '\r' || c = '\n'

def schemeChar (c : Char) : Bool := c.isAlpha || c.isDigit || c = '+' || c = '-' || c = '.'

def headIsAsciiAlpha : List Char → Bool
  | [] => false
  | c :: _ => c.isAlpha

def netlocDelim (c : Char) : Bool := c = '/' || c = '?' || c = '#'

/-- WHATWG pre-clean of the url: lstrip C0 controls and space, remove
tab/CR/LF. -/
def preCleanUrl (url : List Char) : List Char :=
  (url.dropWhile c0OrSpace).filter fun c => !unsafeByte c

/-- Pre-clean of the scheme argument: strip both ends, remove tab/CR/LF. -/
def preCleanScheme (s : List Char) : List Char :=
  (((s.dropWhile c0OrSpace).reverse.dropWhile c0OrSpace).reverse).filter
    fun c => !unsafeByte c

/-- The scheme detection of `urlsplit`: `(scheme, remaining url)`. -/
def schemeSplit (sch0 url1 : List Char) : List Char × List Char :=
  match splitFirst ':' url1 with
  | some p =>
    if !p.1.isEmpty && headIsAsciiAlpha p.1 && p.1.all schemeChar
    then (asciiLower p.1, p.2) else (sch0, url1)
  | none => (sch0, url1)

/-- Unbalanced bracket in the authority: `urlsplit` raises `ValueError`. -/
def bracketsBad (nl : List Char) : Bool :=
  (containsChar '[' nl && !containsChar ']' nl)
    || (containsChar ']' nl && !containsChar '[' nl)

/-- Balanced bracketed host: CPython validates it as an IPv6/IPvFuture
literal and raises on anything else; conservatively modelled as raising
(no claim under verification reaches this branch, and the crawler's target
authority carries no brackets). -/
def bracketsBoth (nl : List Char) : Bool :=
  containsChar '[' nl && containsChar ']' nl

/-- The fragment split of `urlsplit`. -/
def fragSplit (allowFrag : Bool) (u : List Char) : List Char × List Char :=
  if allowFrag && containsChar '#' u then splitFirstD '#' u else (u, [])

/-- The query split of `urlsplit`. -/
def querySplit (u : List Char) : List Char × List Char :=
  if containsChar '?' u then splitFirstD '?' u else (u, [])

/-- The fragment and query splits: `(path, query, fragment)`. -/
def fragQuerySplit (allowFrag : Bool) (u : List Char) : List Char × List Char × List Char :=
  let fr := fragSplit allowFrag u
  let pq := querySplit fr.1
  (pq.1, pq.2, fr.2)

/-- `urlsplit(url, scheme, allow_fragments)`. -/
def urlsplitE (url0 scheme0 : List Char) (allowFrag : Bool) : Except Unit SplitResult :=
  let su := schemeSplit (preCleanScheme scheme0) (preCleanUrl url0)
  if su.2.take 2 = ['/', '/'] then
    let after := su.2.drop 2
    let nl := after.takeWhile fun c => !netlocDelim c
    let rest := after.dropWhile fun c => !netlocDelim c
    if bracketsBad nl then .error ()
    else if bracketsBoth nl then .error ()
    else
      let x := fragQuerySplit allowFrag rest
      .ok ⟨su.1, nl, x.1, x.2.1, x.2.2⟩
  else
    let x := fragQuerySplit allowFrag su.2
    .ok ⟨su.1, [], x.1, x.2.1, x.2.2⟩

/-- `_splitparams(url)` (only called when `';' in url`). -/
def splitParams (url : List Char) : List Char × List Char :=
  if containsChar '/' url then
    let lastSeg := (url.reverse.takeWhile fun c => !(c = '/')).reverse
    let front := url.take (url.length - lastSeg.length)
    match splitFirst ';' lastSeg with
    | some p => (front ++ p.1, p.2)
    | none => (url, [])
  else splitFirstD ';' url

/-- `urlparse(url, scheme, allow_fragments)`. -/
def urlparseE (url scheme0 : List Char) (allowFrag : Bool) : Except Unit ParseResult := do
  let sr ← urlsplitE url scheme0 allowFrag
  if inList sr.scheme uses_params && containsChar ';' sr.path then
    let pp := splitParams sr.path
    return ⟨sr.scheme, sr.netloc, pp.1, pp.2, sr.query, sr.fragment⟩
  else
    return ⟨sr.scheme, sr.netloc, sr.path, [], sr.query, sr.fragment⟩

/-- `urlunsplit((scheme, netloc, url, query, fragment))`. -/
def urlunsplit (scheme netloc url query fragment : List Char) : List Char :=
  let url := if !netloc.isEmpty
      || (!scheme.isEmpty && inList scheme uses_netloc && url.take 2 ≠ ['/', '/']) then
    (let url' := if !url.isEmpty && url.take 1 ≠ ['/'] then '/' :: url else url
     '/' :: '/' :: (netloc ++ url'))
    else url
  let url := if !scheme.isEmpty then scheme ++ ':' :: url else url
  let url := if !query.isEmpty then url ++ '?' :: query else url
  if !fragment.isEmpty then url ++ '#' :: fragment else url

/-- `urlunparse`. -/
def urlunparse (p : ParseResult) : List Char :=
  let url := if !p.params.isEmpty then p.path ++ ';' :: p.params else p.path
  urlunsplit p.scheme p.netloc url p.query p.fragment

/-- `urldefrag(url)[0]`. -/
def urldefragE (url : List Char) : Except Unit (List Char) := do
  if containsChar '#' url then
    let p ← urlparseE url [] true
    return urlunparse ⟨p.scheme, p.netloc, p.path, p.params, p.query, []⟩
  else
    return url

/-- `segments[1:-1] = filter(None, segments[1:-1])`. -/
def filterMiddle : List (List Char) → List (List Char)
  | [] => []
  | [x] => [x]
  | x :: rest => x :: ((rest.dropLast.filter fun s => !s.isEmpty) ++ [rest.getLastD []])

def joinSlash : List (List Char) → List Char
  | [] => []
  | [x] => x
  | x :: rest => x ++ '/' :: joinSlash rest

/-- `urljoin(base, url, allow_fragments)`. -/
def urljoinE (base url : List Char) (allowFrag : Bool) : Except Unit (List Char) := do
  if base.isEmpty then return url
  else if url.isEmpty then return base
  else
    let b ← urlparseE base [] allowFrag
    let u ← urlparseE url b.scheme allowFrag
    if u.scheme ≠ b.scheme || !inList u.scheme uses_relative then return url
    else
      if inList u.scheme uses_netloc && !u.netloc.isEmpty then
        return urlunparse u
      else
        let netloc1 := if inList u.scheme uses_netloc then b.netloc else u.netloc
        if u.path.isEmpty && u.params.isEmpty then
          let query := if u.query.isEmpty then b.query else u.query
          return urlunparse ⟨u.scheme, netloc1, b.path, b.params, query, u.fragment⟩
        else
          let baseParts0 := splitAll '/' b.path
          let baseParts := if baseParts0.getLastD [] ≠ [] then baseParts0.dropLast
                           else baseParts0
          let segments := if u.path.take 1 = ['/'] then splitAll '/' u.path
            else filterMiddle (baseParts ++ splitAll '/' u.path)
          let resolved := segments.foldl (fun acc seg =>
            if seg = ['.', '.'] then acc.dropLast
            else if seg = ['.'] then acc
            else acc ++ [seg]) []
          let resolved := if segments.getLastD [] = ['.'] ∨ segments.getLastD [] = ['.', '.']
            then resolved ++ [[]] else resolved
          let joined := joinSlash resolved
          let joined := if joined.isEmpty then ['/'] else joined
          return urlunparse ⟨u.scheme, netloc1, joined, u.params, u.query, u.fragment⟩

end UrlLib

namespace Re

/-- `re.search` requiring the match to reach the end of the string. -/
def searchEndF : Nat → List Tok → List Char → Option (List (List Char))
  | 0, _, _ => none
  | fuel + 1, toks, s =>
    match matchToks toks s true with
    | some caps => some caps
    | none =>
      match s with
      | [] => none
      | _ :: rest => searchEndF fuel toks rest

def reSearchEnd (toks : List Tok) (s : List Char) : Option (List (List Char)) :=
  searchEndF (s.length + 1) toks s

end Re

namespace Crawl

/-- The non-document extensions of `normalize_link`'s filter. -/
def extExts : List (List Char) :=
  ["jpg".data, "jpeg".data, "png".data, "gif".data, "webp".data, "svg".data,
   "ico".data, "css".data, "js".data, "pdf".data, "mp4".data, "m3u8".data,
   "zip".data, "rar".data]

/-- The extension pattern: a dot, one of the extensions, then either a
literal question mark or the end of the path (`re.search` with the
case-insensitive flag, applied by lowercasing the path). -/
def extMatch (path : List Char) : Bool :=
  let p := UrlLib.asciiLower path
  (Re.reSearch [Re.Tok.lit ['.'], Re.Tok.oneOf extExts, Re.Tok.lit ['?']] p).isSome
    || (Re.reSearchEnd [Re.Tok.lit ['.'], Re.Tok.oneOf extExts] p).isSome

/-- `KooraCrawler.normalize_link(link, page_url)`; `domain` is the crawler's
lowercased target host. -/
def normalize_link (domain link pageUrl : List Char) :
    Except Unit (Option (List Char)) := do
  if link.isEmpty then return none
  else
    let defr ← UrlLib.urldefragE link
    let joined ← UrlLib.urljoinE pageUrl defr true
    let parsed ← UrlLib.urlparseE joined [] true
    if ¬ (parsed.scheme = "http".data ∨ parsed.scheme = "https".data) then return none
    else if UrlLib.asciiLower parsed.netloc ≠ domain then return none
    else if extMatch parsed.path then return none
    else return (some joined)

end Crawl

namespace UrlLib

/-- No square bracket occurs in the string: the condition under which the
bracket validation of `urlsplit` cannot raise. -/
def noBr (l : List Char) : Prop := '[' ∉ l ∧ ']' ∉ l

theorem noBr_subset {l l' : List Char} (hsub : ∀ c, c ∈ l' → c ∈ l) (h : noBr l) :
    noBr l' :=
  ⟨fun hc => h.1 (hsub _ hc), fun hc => h.2 (hsub _ hc)⟩

theorem noBr_nil : noBr [] := ⟨by simp, by simp⟩

theorem noBr_append {a b : List Char} (ha : noBr a) (hb : noBr b) : noBr (a ++ b) := by
  constructor <;> rw [List.mem_append] <;> rintro (h | h)
  · exact ha.1 h
  · exact hb.1 h
  · exact ha.2 h
  · exact hb.2 h

theorem noBr_cons {c : Char} {l : List Char} (hc : c ≠ '[' ∧ c ≠ ']') (h : noBr l) :
    noBr (c :: l) := by
  constructor <;> rw [List.mem_cons] <;> rintro (h' | h')
  · exact hc.1 h'.symm
  · exact h.1 h'
  · exact hc.2 h'.symm
  · exact h.2 h'

theorem containsChar_eq_false {c : Char} {l : List Char} (h : c ∉ l) :
    containsChar c l = false := by
  unfold containsChar
  rw [Bool.eq_false_iff]
  intro hc
  rcases List.any_eq_true.mp hc with ⟨d, hd, hdc⟩
  rw [decide_eq_true_iff] at hdc
  exact h (hdc ▸ hd)

theorem splitFirst_subset {c : Char} :
    ∀ {l p : _}, splitFirst c l = some p →
      (∀ x ∈ p.1, x ∈ l) ∧ (∀ x ∈ p.2, x ∈ l) := by
  intro l
  induction l with
  | nil => intro p h; simp [splitFirst] at h
  | cons d ds ih =>
    intro p h
    unfold splitFirst at h
    split at h
    · cases h
      exact ⟨by simp, fun x hx => by simp [hx]⟩
    · cases hrec : splitFirst c ds with
      | none => rw [hrec] at h; cases h
      | some q =>
        rw [hrec] at h
        cases h
        rcases ih hrec with ⟨h1, h2⟩
        constructor
        · intro x hx
          rcases List.mem_cons.mp hx with rfl | hx'
          · simp
          · simp [h1 x hx']
        · intro x hx
          simp [h2 x hx]

theorem splitFirstD_subset (c : Char) (l : List Char) :
    (∀ x ∈ (splitFirstD c l).1, x ∈ l) ∧ (∀ x ∈ (splitFirstD c l).2, x ∈ l) := by
  unfold splitFirstD
  cases h : splitFirst c l with
  | none => exact ⟨fun x hx => hx, by simp⟩
  | some p => exact splitFirst_subset h

theorem splitAllF_subset :
    ∀ (fuel : Nat) (c : Char) (l : List Char), ∀ s ∈ splitAllF fuel c l, ∀ x ∈ s, x ∈ l := by
  intro fuel
  induction fuel with
  | zero =>
    intro c l s hs x hx
    simp only [splitAllF, List.mem_singleton] at hs
    exact hs ▸ hx
  | succ f ih =>
    intro c l s hs x hx
    simp only [splitAllF] at hs
    cases hsp : splitFirst c l with
    | none =>
      rw [hsp] at hs
      simp only [List.mem_singleton] at hs
      exact hs ▸ hx
    | some p =>
      rw [hsp] at hs
      rcases List.mem_cons.mp hs with rfl | hs'
      · exact (splitFirst_subset hsp).1 x hx
      · exact (splitFirst_subset hsp).2 x (ih c p.2 s hs' x hx)

theorem splitAll_subset (c : Char) (l : List Char) :
    ∀ s ∈ splitAll c l, ∀ x ∈ s, x ∈ l :=
  splitAllF_subset l.length c l

theorem noBr_asciiLower {l : List Char} (h : noBr l) : noBr (asciiLower l) := by
  have key : ∀ b : Char, b = '[' ∨ b = ']' → b ∉ asciiLower l := by
    intro b hb hmem
    rcases List.mem_map.mp hmem with ⟨c, hc, hfc⟩
    by_cases hA : 'A' ≤ c ∧ c ≤ 'Z'
    · rw [if_pos hA] at hfc
      have h1 : 65 ≤ c.toNat := by
        have := hA.1
        simp [Char.le_def] at this
        exact this
      have h2 : c.toNat ≤ 90 := by
        have := hA.2
        simp [Char.le_def] at this
        exact this
      have hvalid : (c.toNat + 32).isValidChar := by left; omega
      have htn : (Char.ofNat (c.toNat + 32)).toNat = c.toNat + 32 := by
        unfold Char.ofNat Char.toNat
        rw [dif_pos (show (c.val.toNat + 32).isValidChar from hvalid)]
        rfl
      have hbtn : b.toNat = c.toNat + 32 := by rw [← hfc, htn]
      rcases hb with rfl | rfl
      · have hB : ('[' : Char).toNat = 91 := rfl
        omega
      · have hB : (']' : Char).toNat = 93 := rfl
        omega
    · rw [if_neg hA] at hfc
      subst hfc
      rcases hb with rfl | rfl
      · exact h.1 hc
      · exact h.2 hc
  exact ⟨key '[' (Or.inl rfl), key ']' (Or.inr rfl)⟩

end UrlLib

namespace UrlLib

theorem getLastD_mem {α : Type} (l : List α) (d : α) (h : l ≠ []) : l.getLastD d ∈ l := by
  rw [List.getLastD_eq_getLast?, List.getLast?_eq_getLast _ h]
  simp [List.getLast_mem]

theorem preCleanUrl_subset (url : List Char) : ∀ x ∈ preCleanUrl url, x ∈ url := by
  intro x hx
  exact (List.dropWhile_sublist _).subset (List.mem_of_mem_filter hx)

theorem preCleanScheme_subset (s : List Char) : ∀ x ∈ preCleanScheme s, x ∈ s := by
  intro x hx
  have h1 := List.mem_of_mem_filter hx
  rw [List.mem_reverse] at h1
  have h2 := (List.dropWhile_sublist _).subset h1
  rw [List.mem_reverse] at h2
  exact (List.dropWhile_sublist _).subset h2

theorem schemeSplit_fst_noBr {sch0 u : List Char} (hs : noBr sch0) (hu : noBr u) :
    noBr (schemeSplit sch0 u).1 := by
  unfold schemeSplit
  cases h : splitFirst ':' u with
  | none => exact hs
  | some p =>
    dsimp only
    by_cases hc : (!p.1.isEmpty && headIsAsciiAlpha p.1 && p.1.all schemeChar) = true
    · rw [if_pos hc]
      exact noBr_asciiLower (noBr_subset (splitFirst_subset h).1 hu)
    · rw [if_neg hc]
      exact hs

theorem schemeSplit_snd_subset (sch0 u : List Char) :
    ∀ x ∈ (schemeSplit sch0 u).2, x ∈ u := by
  unfold schemeSplit
  cases h : splitFirst ':' u with
  | none => exact fun x hx => hx
  | some p =>
    dsimp only
    by_cases hc : (!p.1.isEmpty && headIsAsciiAlpha p.1 && p.1.all schemeChar) = true
    · rw [if_pos hc]
      exact (splitFirst_subset h).2
    · rw [if_neg hc]
      exact fun x hx => hx

theorem fragSplit_subset (f : Bool) (u : List Char) :
    (∀ x ∈ (fragSplit f u).1, x ∈ u) ∧ (∀ x ∈ (fragSplit f u).2, x ∈ u) := by
  unfold fragSplit
  split
  · exact splitFirstD_subset '#' u
  · exact ⟨fun x hx => hx, by simp⟩

theorem querySplit_subset (u : List Char) :
    (∀ x ∈ (querySplit u).1, x ∈ u) ∧ (∀ x ∈ (querySplit u).2, x ∈ u) := by
  unfold querySplit
  split
  · exact splitFirstD_subset '?' u
  · exact ⟨fun x hx => hx, by simp⟩

theorem fragQuerySplit_subset (f : Bool) (u : List Char) :
    (∀ x ∈ (fragQuerySplit f u).1, x ∈ u) ∧
    (∀ x ∈ (fragQuerySplit f u).2.1, x ∈ u) ∧
    (∀ x ∈ (fragQuerySplit f u).2.2, x ∈ u) := by
  unfold fragQuerySplit
  refine ⟨?_, ?_, (fragSplit_subset f u).2⟩
  · intro x hx
    exact (fragSplit_subset f u).1 _ ((querySplit_subset _).1 x hx)
  · intro x hx
    exact (fragSplit_subset f u).1 _ ((querySplit_subset _).2 x hx)

theorem urlsplitE_ok {url0 scheme0 : List Char} (f : Bool)
    (hu : noBr url0) (hs : noBr scheme0) :
    ∃ r : SplitResult, urlsplitE url0 scheme0 f = .ok r ∧
      noBr r.scheme ∧ noBr r.netloc ∧ noBr r.path ∧ noBr r.query ∧ noBr r.fragment := by
  have hpcu : noBr (preCleanUrl url0) := noBr_subset (preCleanUrl_subset url0) hu
  have hpcs : noBr (preCleanScheme scheme0) := noBr_subset (preCleanScheme_subset scheme0) hs
  have hsu1 : noBr (schemeSplit (preCleanScheme scheme0) (preCleanUrl url0)).1 :=
    schemeSplit_fst_noBr hpcs hpcu
  have hsu2 : noBr (schemeSplit (preCleanScheme scheme0) (preCleanUrl url0)).2 :=
    noBr_subset (schemeSplit_snd_subset _ _) hpcu
  have hafter_nb : noBr ((schemeSplit (preCleanScheme scheme0) (preCleanUrl url0)).2.drop 2) :=
    noBr_subset (fun x hx => (List.drop_sublist _ _).subset hx) hsu2
  have hnl : noBr (((schemeSplit (preCleanScheme scheme0) (preCleanUrl url0)).2.drop 2).takeWhile
      fun c => !netlocDelim c) :=
    noBr_subset (fun x hx => (List.takeWhile_sublist _).subset hx) hafter_nb
  have hrest : noBr (((schemeSplit (preCleanScheme scheme0) (preCleanUrl url0)).2.drop 2).dropWhile
      fun c => !netlocDelim c) :=
    noBr_subset (fun x hx => (List.dropWhile_sublist _).subset hx) hafter_nb
  have hbad : bracketsBad (((schemeSplit (preCleanScheme scheme0) (preCleanUrl url0)).2.drop 2).takeWhile
      fun c => !netlocDelim c) = false := by
    unfold bracketsBad
    rw [containsChar_eq_false hnl.1, containsChar_eq_false hnl.2]
    rfl
  have hboth : bracketsBoth (((schemeSplit (preCleanScheme scheme0) (preCleanUrl url0)).2.drop 2).takeWhile
      fun c => !netlocDelim c) = false := by
    unfold bracketsBoth
    rw [containsChar_eq_false hnl.1]
    rfl
  unfold urlsplitE
  dsimp only
  by_cases hsl : List.take 2 (schemeSplit (preCleanScheme scheme0) (preCleanUrl url0)).2 = ['/', '/']
  · rw [if_pos hsl, if_neg (by rw [hbad]; exact Bool.false_ne_true),
      if_neg (by rw [hboth]; exact Bool.false_ne_true)]
    refine ⟨_, rfl, hsu1, hnl, ?_, ?_, ?_⟩
    · exact noBr_subset (fragQuerySplit_subset f _).1 hrest
    · exact noBr_subset (fragQuerySplit_subset f _).2.1 hrest
    · exact noBr_subset (fragQuerySplit_subset f _).2.2 hrest
  · rw [if_neg hsl]
    refine ⟨_, rfl, hsu1, noBr_nil, ?_, ?_, ?_⟩
    · exact noBr_subset (fragQuerySplit_subset f _).1 hsu2
    · exact noBr_subset (fragQuerySplit_subset f _).2.1 hsu2
    · exact noBr_subset (fragQuerySplit_subset f _).2.2 hsu2

end UrlLib

namespace UrlLib

theorem noBr_ite {c : Prop} [Decidable c] {a b : List Char} (ha : noBr a) (hb : noBr b) :
    noBr (if c then a else b) := by
  split
  · exact ha
  · exact hb

theorem noBr_safe_cons {c : Char} {l : List Char} (h1 : c ≠ '[') (h2 : c ≠ ']')
    (h : noBr l) : noBr (c :: l) := noBr_cons ⟨h1, h2⟩ h

theorem splitParams_subset (url : List Char) :
    (∀ x ∈ (splitParams url).1, x ∈ url) ∧ (∀ x ∈ (splitParams url).2, x ∈ url) := by
  unfold splitParams
  split
  · dsimp only
    have hseg : ∀ x ∈ (url.reverse.takeWhile fun c => !(c = '/')).reverse, x ∈ url := by
      intro x hx
      rw [List.mem_reverse] at hx
      have := (List.takeWhile_sublist _).subset hx
      rw [List.mem_reverse] at this
      exact this
    cases h : splitFirst ';' ((url.reverse.takeWhile fun c => !(c = '/')).reverse) with
    | none =>
      simp only [h]
      exact ⟨fun x hx => hx, by simp⟩
    | some p =>
      simp only [h]
      constructor
      · intro x hx
        rcases List.mem_append.mp hx with h1 | h1
        · exact (List.take_sublist _ _).subset h1
        · exact hseg x ((splitFirst_subset h).1 x h1)
      · intro x hx
        exact hseg x ((splitFirst_subset h).2 x hx)
  · exact splitFirstD_subset ';' url

theorem noBr_urlunsplit {scheme netloc url query fragment : List Char}
    (h1 : noBr scheme) (h2 : noBr netloc) (h3 : noBr url) (h4 : noBr query)
    (h5 : noBr fragment) : noBr (urlunsplit scheme netloc url query fragment) := by
  unfold urlunsplit
  dsimp only
  repeat'
    first
      | assumption
      | exact noBr_nil
      | apply noBr_ite
      | apply noBr_append
      | apply noBr_safe_cons (by decide) (by decide)

theorem noBr_urlunparse {p : ParseResult} (h1 : noBr p.scheme) (h2 : noBr p.netloc)
    (h3 : noBr p.path) (h4 : noBr p.params) (h5 : noBr p.query)
    (h6 : noBr p.fragment) : noBr (urlunparse p) := by
  unfold urlunparse
  dsimp only
  apply noBr_urlunsplit h1 h2 _ h5 h6
  apply noBr_ite _ h3
  apply noBr_append h3
  apply noBr_safe_cons (by decide) (by decide) h4

theorem urlparseE_ok {url scheme0 : List Char} (f : Bool)
    (hu : noBr url) (hs : noBr scheme0) :
    ∃ r : ParseResult, urlparseE url scheme0 f = .ok r ∧
      noBr r.scheme ∧ noBr r.netloc ∧ noBr r.path ∧ noBr r.params ∧
      noBr r.query ∧ noBr r.fragment := by
  obtain ⟨sr, hsr, h1, h2, h3, h4, h5⟩ := urlsplitE_ok f hu hs
  unfold urlparseE
  rw [hsr, exceptOk_bind]
  dsimp only
  split
  · exact ⟨_, rfl, h1, h2,
      noBr_subset (splitParams_subset sr.path).1 h3,
      noBr_subset (splitParams_subset sr.path).2 h3, h4, h5⟩
  · exact ⟨_, rfl, h1, h2, h3, noBr_nil, h4, h5⟩

theorem urldefragE_ok {url : List Char} (hu : noBr url) :
    ∃ r, urldefragE url = .ok r ∧ noBr r := by
  unfold urldefragE
  split
  · obtain ⟨p, hp, h1, h2, h3, h4, h5, h6⟩ := urlparseE_ok true hu noBr_nil
    rw [hp, exceptOk_bind]
    exact ⟨_, rfl, noBr_urlunparse h1 h2 h3 h4 h5 noBr_nil⟩
  · exact ⟨url, rfl, hu⟩

end UrlLib

namespace UrlLib

theorem filterMiddle_mem :
    ∀ (l : List (List Char)), ∀ s ∈ filterMiddle l, s ∈ l := by
  intro l
  match l with
  | [] => intro s hs; exact hs
  | [x] => intro s hs; exact hs
  | x :: y :: rest =>
    intro s hs
    simp only [filterMiddle] at hs
    rcases List.mem_cons.mp hs with rfl | hs'
    · simp
    · rcases List.mem_append.mp hs' with h1 | h1
      · have := (List.dropLast_sublist _).subset (List.mem_of_mem_filter h1)
        exact List.mem_cons_of_mem _ this
      · rw [List.mem_singleton] at h1
        subst h1
        exact List.mem_cons_of_mem _ (getLastD_mem _ _ (by simp))

theorem resolve_noBr :
    ∀ (segs acc : List (List Char)), (∀ s ∈ acc, noBr s) → (∀ s ∈ segs, noBr s) →
      ∀ s ∈ segs.foldl (fun acc seg =>
          if seg = ['.', '.'] then acc.dropLast
          else if seg = ['.'] then acc
          else acc ++ [seg]) acc, noBr s := by
  intro segs
  induction segs with
  | nil => intro acc hacc _ s hs; exact hacc s hs
  | cons a rest ih =>
    intro acc hacc hsegs s hs
    simp only [List.foldl_cons] at hs
    refine ih _ ?_ (fun t ht => hsegs t (List.mem_cons_of_mem _ ht)) s hs
    intro t ht
    split at ht
    · exact hacc t ((List.dropLast_sublist _).subset ht)
    · split at ht
      · exact hacc t ht
      · rcases List.mem_append.mp ht with h1 | h1
        · exact hacc t h1
        · rw [List.mem_singleton] at h1
          exact h1 ▸ hsegs a (by simp)

theorem noBr_joinSlash :
    ∀ (l : List (List Char)), (∀ s ∈ l, noBr s) → noBr (joinSlash l) := by
  intro l
  match l with
  | [] => intro _; exact noBr_nil
  | [x] => intro h; exact h x (by simp)
  | x :: y :: rest =>
    intro h
    show noBr (x ++ '/' :: joinSlash (y :: rest))
    refine noBr_append (h x (by simp)) ?_
    refine noBr_safe_cons (by decide) (by decide) ?_
    exact noBr_joinSlash (y :: rest) (fun s hs => h s (List.mem_cons_of_mem _ hs))

theorem resolvedFull_noBr (segs : List (List Char)) (h : ∀ s ∈ segs, noBr s) :
    ∀ s ∈ (if segs.getLastD [] = ['.'] ∨ segs.getLastD [] = ['.', '.'] then
        segs.foldl (fun acc seg =>
          if seg = ['.', '.'] then acc.dropLast
          else if seg = ['.'] then acc
          else acc ++ [seg]) [] ++ [[]]
      else segs.foldl (fun acc seg =>
          if seg = ['.', '.'] then acc.dropLast
          else if seg = ['.'] then acc
          else acc ++ [seg]) []), noBr s := by
  intro s hs
  split at hs
  · rcases List.mem_append.mp hs with h1 | h1
    · exact resolve_noBr segs [] (by simp) h s h1
    · rw [List.mem_singleton] at h1
      exact h1 ▸ noBr_nil
  · exact resolve_noBr segs [] (by simp) h s hs

theorem urljoinE_ok {base url : List Char} (f : Bool) (hb : noBr base) (hu : noBr url) :
    ∃ r, urljoinE base url f = .ok r ∧ noBr r := by
  unfold urljoinE
  split
  · exact ⟨url, rfl, hu⟩
  · split
    · exact ⟨base, rfl, hb⟩
    · obtain ⟨b, hbp, hb1, hb2, hb3, hb4, hb5, hb6⟩ := urlparseE_ok f hb noBr_nil
      obtain ⟨u, hup, hu1, hu2, hu3, hu4, hu5, hu6⟩ := urlparseE_ok f hu hb1
      rw [hbp, exceptOk_bind, hup, exceptOk_bind]
      dsimp only
      by_cases hrel : (decide ¬u.scheme = b.scheme || !inList u.scheme uses_relative) = true
      · rw [if_pos hrel]
        exact ⟨url, rfl, hu⟩
      · rw [if_neg hrel]
        by_cases hnc : (inList u.scheme uses_netloc && !u.netloc.isEmpty) = true
        · rw [if_pos hnc]
          exact ⟨_, rfl, noBr_urlunparse hu1 hu2 hu3 hu4 hu5 hu6⟩
        · rw [if_neg hnc]
          have hnl1 : noBr (if inList u.scheme uses_netloc then b.netloc else u.netloc) :=
            noBr_ite hb2 hu2
          by_cases hpe : (u.path.isEmpty && u.params.isEmpty) = true
          · rw [if_pos hpe]
            exact ⟨_, rfl, noBr_urlunparse hu1 hnl1 hb3 hb4 (noBr_ite hb5 hu5) hu6⟩
          · rw [if_neg hpe]
            have hbp0 : ∀ s ∈ splitAll '/' b.path, noBr s := fun s hs =>
                noBr_subset (splitAll_subset '/' b.path s hs) hb3
            have hbparts : ∀ s ∈ (if (splitAll '/' b.path).getLastD [] ≠ [] then
                (splitAll '/' b.path).dropLast else splitAll '/' b.path), noBr s := by
              intro s hs
              split at hs
              · exact hbp0 s ((List.dropLast_sublist _).subset hs)
              · exact hbp0 s hs
            have hup0 : ∀ s ∈ splitAll '/' u.path, noBr s := fun s hs =>
              noBr_subset (splitAll_subset '/' u.path s hs) hu3
            refine ⟨_, rfl, ?_⟩
            refine noBr_urlunparse ?_ ?_ ?_ ?_ ?_ ?_ <;> dsimp only
            · exact hu1
            · exact hnl1
            · apply noBr_ite ⟨by decide, by decide⟩
              apply noBr_joinSlash
              intro s hs
              split at hs
              · exact resolvedFull_noBr _ hup0 s hs
              · refine resolvedFull_noBr _ ?_ s hs
                intro t ht
                rcases List.mem_append.mp (filterMiddle_mem _ t ht) with h1 | h1
                · exact hbparts t h1
                · exact hup0 t h1
            · exact hu4
            · exact hu5
            · exact hu6

end UrlLib

namespace UrlLib

instance (l : List Char) : Decidable (noBr l) :=
  inferInstanceAs (Decidable ('[' ∉ l ∧ ']' ∉ l))

end UrlLib

/-- C5 counterexample: `normalize_link` raises for a malformed href with
invalid bracketed host syntax — an unbalanced `[` in the authority makes
`urlsplit` raise `ValueError`, which propagates out of `normalize_link`. -/
theorem claim_c5_counterexample :
    Crawl.normalize_link "www.yallakora.com".data "http://[bad".data
      "https://www.yallakora.com/c".data = Except.error () := by
  decide

/-- C5 (amended): `normalize_link` returns (a URL or null) without raising
whenever neither the href nor the page URL contains a square bracket; the
ASCII bounds scope the statement to inputs where CPython's authority
validation (`_check_bracketed_host` / `_checknetloc`) can only fire on
brackets. Malformed bracketed hosts make it raise `ValueError`
(see the counterexample). -/
theorem claim_c5_amended_no_raise_without_brackets
    (domain link pageUrl : List Char)
    (hl : UrlLib.noBr link) (hp : UrlLib.noBr pageUrl)
    (hla : ∀ c ∈ link, c.toNat < 128) (hpa : ∀ c ∈ pageUrl, c.toNat < 128) :
    ∃ r, Crawl.normalize_link domain link pageUrl = Except.ok r := by
  unfold Crawl.normalize_link
  by_cases he : link.isEmpty = true
  · rw [if_pos he]
    exact ⟨none, rfl⟩
  · rw [if_neg he]
    obtain ⟨d, hd, hnd⟩ := UrlLib.urldefragE_ok hl
    rw [hd, exceptOk_bind]
    obtain ⟨j, hj, hnj⟩ := UrlLib.urljoinE_ok true hp hnd
    rw [hj, exceptOk_bind]
    obtain ⟨p, hparse, _, _, _, _, _, _⟩ := UrlLib.urlparseE_ok true hnj UrlLib.noBr_nil
    rw [hparse, exceptOk_bind]
    split
    · exact ⟨_, rfl⟩
    · split
      · exact ⟨_, rfl⟩
      · split
        · exact ⟨_, rfl⟩
        · exact ⟨_, rfl⟩

/-- Witness for amended C5 at a concrete bracket-free ASCII href and page. -/
theorem claim_c5_amended_witness :
    ∃ r, Crawl.normalize_link "x.com".data "/a/b".data "https://x.com/c".data
      = Except.ok r :=
  claim_c5_amended_no_raise_without_brackets "x.com".data "/a/b".data
    "https://x.com/c".data (by decide) (by decide) (by decide) (by decide)

namespace ExtractMatches

/-!
Shallow embedding of `extract_matches.py`: Arabic-date parsing, team parsing
from the title, time extraction, competition slug mapping, and the main
`extract_matches` loop with its stable sort.  The record streams of the input
JSONL files are modelled as one list of already-decoded records (the loop
shares a single `seen_urls` set across files, so concatenation is faithful).
-/

/-- `AR_MONTHS`, in source order (also the regex alternation order). -/
def AR_MONTHS : List (List Char × Nat) :=
  [("يناير".data, 1), ("فبراير".data, 2), ("مارس".data, 3),
   ("أبريل".data, 4), ("ابريل".data, 4),
   ("مايو".data, 5), ("يونيو".data, 6), ("يوليو".data, 7),
   ("أغسطس".data, 8), ("اغسطس".data, 8),
   ("سبتمبر".data, 9), ("أكتوبر".data, 10), ("اكتوبر".data, 10),
   ("نوفمبر".data, 11), ("ديسمبر".data, 12)]

/-- `AR_MONTHS[k]` (the key always comes from the alternation, so the lookup
never fails; 0 is an unreachable default). -/
def monthNum (k : List Char) : Nat :=
  ((AR_MONTHS.find? fun p => p.1 == k).map Prod.snd).getD 0

/-- The date pattern: one or two digits, whitespace, a month name,
whitespace, four digits; groups 1..3 are the tokens at indices 0, 2, 4. -/
def dateToks : List Re.Tok :=
  [Re.Tok.cls Re.isDig 1 (some 2) false,
   Re.Tok.cls PyStr.isWs 1 none false,
   Re.Tok.oneOf (AR_MONTHS.map Prod.fst),
   Re.Tok.cls PyStr.isWs 1 none false,
   Re.Tok.cls Re.isDig 4 (some 4) false]

/-- `parse_ar_date(text)`: normalise whitespace, search the date pattern,
format as zero-padded `YYYY-MM-DD` (the f-string never raises, so the
`try/except` contributes nothing). -/
def parse_ar_date (text : List Char) : Option (List Char) :=
  match Re.reSearch dateToks (PyStr.normWs text) with
  | none => none
  | some caps =>
    let day := Re.digitsToNat (caps.getD 0 [])
    let mo := monthNum (caps.getD 2 [])
    let year := Re.digitsToNat (caps.getD 4 [])
    some (App.padNum 4 year ++ '-' :: (App.padNum 2 mo ++ '-' :: App.padNum 2 day))

/-- `s.split(sub, 1)` when `sub` occurs (`(before, after)`); `none` models the
`IndexError` of taking `[1]` when it does not. -/
def splitSubOnce (sub : List Char) : List Char → Option (List Char × List Char)
  | [] => none
  | c :: rest =>
    if App.startsAt sub (c :: rest) then some ([], (c :: rest).drop sub.length)
    else match splitSubOnce sub rest with
      | some p => some (c :: p.1, p.2)
      | none => none

/-- The competition slug table of `extract_competition_from_url`. -/
def compMapping : List (List Char × List Char) :=
  [("egyptian-league".data, "الدوري المصري".data),
   ("qatar-league".data, "دوري نجوم قطر".data),
   ("fiba-afrobasket".data, "بطولة الأفرو باسكت".data),
   ("handball-".data, "كرة اليد".data),
   ("uael-league".data, "الدوري الإماراتي".data)]

/-- `extract_competition_from_url(url)`: slug after the host, mapped through
the table, hyphens turned into spaces otherwise; any failed split indexes
raise and are caught, giving the empty string. -/
def extract_competition_from_url (url : List Char) : List Char :=
  match splitSubOnce "://".data url with
  | none => []
  | some p =>
    match UrlLib.splitFirst '/' p.2 with
    | none => []
    | some q =>
      let slug := (UrlLib.splitFirstD '/' q.2).1
      match compMapping.find? (fun m => m.1 == slug) with
      | some m => m.2
      | none => slug.map fun c => if c = '-' then ' ' else c

/-- The title pattern as an anchored match with end anchor: optional leading
whitespace, the literal, whitespace, a lazy dot-run (group 1, index 3),
whitespace, the waw, whitespace, a greedy dot-run to the end (group 2,
index 7). -/
def teamToks : List Re.Tok :=
  [Re.Tok.cls PyStr.isWs 0 none false,
   Re.Tok.lit "مباراة".data,
   Re.Tok.cls PyStr.isWs 1 none false,
   Re.Tok.cls Re.dotP 1 none true,
   Re.Tok.cls PyStr.isWs 1 none false,
   Re.Tok.lit "و".data,
   Re.Tok.cls PyStr.isWs 1 none false,
   Re.Tok.cls Re.dotP 1 none false]

/-- The trailing-fragment pattern of `clean_team`: optional whitespace, the
literal, optional whitespace, anchored at the end. -/
def detailsToks : List Re.Tok :=
  [Re.Tok.cls PyStr.isWs 0 none false,
   Re.Tok.lit "التفاصيل".data,
   Re.Tok.cls PyStr.isWs 0 none false]

/-- `re.sub(pat, "", s)` for an end-anchored pattern whose body cannot match
the empty string: scan left to right, drop the suffix at the leftmost
position where the pattern matches through to the end. -/
def subEndF : Nat → List Re.Tok → List Char → List Char
  | 0, _, _ => []
  | fuel + 1, toks, s =>
    match Re.matchToks toks s true with
    | some _ => []
    | none =>
      match s with
      | [] => []
      | c :: rest => c :: subEndF fuel toks rest

def subEnd (toks : List Re.Tok) (s : List Char) : List Char :=
  subEndF (s.length + 1) toks s

/-- `clean_team(x)`: normalise whitespace, strip a trailing details
fragment. -/
def clean_team (x : List Char) : List Char :=
  subEnd detailsToks (PyStr.normWs x)

/-- `parse_teams_from_title(title)`. -/
def parse_teams_from_title (title : List Char) :
    Option (List Char × List Char) :=
  match Re.matchToks teamToks (PyStr.normWs title) true with
  | none => none
  | some caps => some (clean_team (caps.getD 3 []), clean_team (caps.getD 7 []))

/-- One decoded JSONL record; absent keys are `none` (`rec.get(k) or ""`
turns them into the empty string). -/
structure PageRec where
  url : Option (List Char)
  title : Option (List Char)
  published : Option (List Char)
  text : Option (List Char)

/-- The time pattern: one or two digits, a colon, exactly two digits. -/
def timeToks : List Re.Tok :=
  [Re.Tok.cls Re.isDig 1 (some 2) false,
   Re.Tok.lit [':'],
   Re.Tok.cls Re.isDig 2 (some 2) false]

/-- `extract_time(rec)`: the normalised `published` field if it is exactly a
time token, else the first time token of the body text, else `None`. -/
def extract_time (rec : PageRec) : Option (List Char) :=
  let pub := PyStr.normWs (rec.published.getD [])
  match Re.matchToks timeToks pub true with
  | some _ => some pub
  | none =>
    match Re.reSearch timeToks (rec.text.getD []) with
    | some caps => some (caps.getD 0 [] ++ ':' :: caps.getD 2 [])
    | none => none

/-- One output row of `extract_matches`. -/
structure Row where
  date : List Char
  time : List Char
  home : List Char
  away : List Char
  competition : List Char
  title : List Char
  url : List Char
deriving DecidableEq

/-- The `strptime` pattern for the format string `%Y-%m-%d %H:%M`: each
directive of CPython's `TimeRE` is a bounded digit run (`%Y` exactly four
digits, the rest one or two) joined by the literal separators, and the
numeric range restrictions of the `TimeRE` alternations together with the
`datetime` constructor are the checks below (month 1..12, day within the
month, year 1..9999, hour at most 23, minute at most 59); the whole string
must be consumed. -/
def dtToks : List Re.Tok :=
  [Re.Tok.cls Re.isDig 4 (some 4) false,
   Re.Tok.lit ['-'],
   Re.Tok.cls Re.isDig 1 (some 2) false,
   Re.Tok.lit ['-'],
   Re.Tok.cls Re.isDig 1 (some 2) false,
   Re.Tok.lit [' '],
   Re.Tok.cls Re.isDig 1 (some 2) false,
   Re.Tok.lit [':'],
   Re.Tok.cls Re.isDig 1 (some 2) false]

/-- `datetime.strptime(s, "%Y-%m-%d %H:%M")`, as the parsed
`(year, month, day, hour, minute)` or an error (`ValueError`). -/
def strptimeE (s : List Char) : Except Unit (Nat × Nat × Nat × Nat × Nat) :=
  match Re.matchToks dtToks s true with
  | none => .error ()
  | some caps =>
    let y := Re.digitsToNat (caps.getD 0 [])
    let mo := Re.digitsToNat (caps.getD 2 [])
    let d := Re.digitsToNat (caps.getD 4 [])
    let h := Re.digitsToNat (caps.getD 6 [])
    let mi := Re.digitsToNat (caps.getD 8 [])
    match App.mkDateE y mo d with
    | .error _ => .error ()
    | .ok _ => if h ≤ 23 ∧ mi ≤ 59 then .ok (y, mo, d, h, mi) else .error ()

/-- `sort_key(r)`: the parsed datetime (sentinel 9999-12-31 23:59 when
`strptime` raises; an empty date falls back to the string 9999-12-31),
paired with the title. -/
def sortKey (r : Row) : (Nat × Nat × Nat × Nat × Nat) × List Char :=
  let ds := if r.date.isEmpty then "9999-12-31".data else r.date
  match strptimeE (ds ++ ' ' :: r.time) with
  | .ok dt => (dt, r.title)
  | .error _ => ((9999, 12, 31, 23, 59), r.title)

/-- Lexicographic order on the parsed datetime tuple (Python compares
`datetime` values by their fields). -/
def dtLt : Nat × Nat × Nat × Nat × Nat → Nat × Nat × Nat × Nat × Nat → Bool
  | (y1, m1, d1, h1, n1), (y2, m2, d2, h2, n2) =>
    if y1 < y2 then true else if y2 < y1 then false
    else if m1 < m2 then true else if m2 < m1 then false
    else if d1 < d2 then true else if d2 < d1 then false
    else if h1 < h2 then true else if h2 < h1 then false
    else n1 < n2

/-- Python `<` on the `(datetime, title)` key tuples. -/
def keyLt (a b : (Nat × Nat × Nat × Nat × Nat) × List Char) : Bool :=
  dtLt a.1 b.1 || (a.1 == b.1 && PyStr.strLt a.2 b.2)

/-- Stable insertion by the sort key (an earlier row goes before a later row
with an equal key). -/
def insertRow (r : Row) : List Row → List Row
  | [] => [r]
  | x :: xs =>
    if !(keyLt (sortKey x) (sortKey r)) then r :: x :: xs
    else x :: insertRow r xs

/-- `rows.sort(key=sort_key)` (stable). -/
def sortRows (rows : List Row) : List Row := rows.foldr insertRow []

/-- The record loop of `extract_matches`: skip empty or already-seen urls,
require the normalised title to start with the match keyword, require teams
and a time, take the date and competition if available, append the row and
mark the url seen. -/
def extractLoop : List PageRec → List (List Char) → List Row → List Row
  | [], _, rows => rows
  | rec :: rest, seen, rows =>
    let url := rec.url.getD []
    if url.isEmpty || seen.contains url then extractLoop rest seen rows
    else
      let title := PyStr.normWs (rec.title.getD [])
      if !(App.startsAt "مباراة".data title) then extractLoop rest seen rows
      else
        match parse_teams_from_title title with
        | none => extractLoop rest seen rows
        | some teams =>
          match extract_time rec with
          | none => extractLoop rest seen rows
          | some time =>
            let dateIso := (parse_ar_date (rec.text.getD [])).getD []
            let comp := extract_competition_from_url url
            extractLoop rest (url :: seen)
              (rows ++ [⟨dateIso, time, teams.1, teams.2, comp, title, url⟩])

/-- `extract_matches(paths)` over the concatenated record stream. -/
def extract_matches (recs : List PageRec) : List Row :=
  sortRows (extractLoop recs [] [])

/-- The representative C9 record: the exact title, a body holding the date
and the kick-off time. -/
def c9rec : PageRec :=
  { url := some "https://www.yallakora.com/egyptian-league/12345".data
  , title := some "مباراة الأهلي و الزمالك".data
  , published := none
  , text := some "تقام مباراة الأهلي و الزمالك يوم 14 أغسطس 2025 الساعة 20:00 مساء".data }

/-- A record whose body contains the required date and the time token 20:00
but also an earlier time token. -/
def c9badRec : PageRec :=
  { url := some "https://www.yallakora.com/egyptian-league/12345".data
  , title := some "مباراة الأهلي و الزمالك".data
  , published := none
  , text := some "تحديث 09:15 — تقام المباراة يوم 14 أغسطس 2025 الساعة 20:00 مساء".data }

end ExtractMatches

/-- C9 counterexample: a page record whose title is exactly the claimed one
and whose body text contains both "14 أغسطس 2025" and the time token
"20:00" — yet the extractor emits time "09:15", the FIRST time token of the
body, not "20:00". -/
theorem claim_c9_counterexample :
    (App.infixIn "14 أغسطس 2025".data (ExtractMatches.c9badRec.text.getD []) = true ∧
     App.infixIn "20:00".data (ExtractMatches.c9badRec.text.getD []) = true ∧
     ExtractMatches.c9badRec.title = some "مباراة الأهلي و الزمالك".data) ∧
    (ExtractMatches.extract_matches [ExtractMatches.c9badRec]).map
        ExtractMatches.Row.time = ["09:15".data] := by
  decide

/-- C9 (amended): when "20:00" is the first time token of the body (and the
published field is not itself a time token) and "14 أغسطس 2025" is the
first date pattern, the extractor emits home "الأهلي", away "الزمالك",
date "2025-08-14" and time "20:00"; verified at the representative
record. -/
theorem claim_c9_amended_concrete :
    ExtractMatches.extract_matches [ExtractMatches.c9rec] =
      [{ date := "2025-08-14".data
       , time := "20:00".data
       , home := "الأهلي".data
       , away := "الزمالك".data
       , competition := "الدوري المصري".data
       , title := "مباراة الأهلي و الزمالك".data
       , url := "https://www.yallakora.com/egyptian-league/12345".data }] := by
  decide
